import Mathlib

set_option maxRecDepth 8000

/-!
Verification development for the vraw-lib codec (JohanAberg/vraw-lib).

Shallow embedding of the C++ sources:
  src/VrawWriter.cpp  (bit packer, submitFrame size logic, writer state machine,
                       file layout produced by a writer session)
  src/VrawReader.cpp  (bit unpacker, file-header parsing, sequential index recovery)
  src/Encoding.cpp    (logarithmic pixel transform; float arithmetic modelled over ℝ)

Machine integers are modelled as Nat.  Bitwise operations of the C++ code are
rendered as arithmetic on Nat: for values v < 2^k one has (v >> s) = v / 2^s,
(v & (2^k - 1)) = v % 2^k, and a bitwise OR of operands with disjoint bit ranges
equals their sum.  Each definition carries the original expression in a comment.
All C++ accumulators stay far below 2^32 (at most 17 live bits), so plain Nat
arithmetic agrees with the uint32 arithmetic of the source.
-/

namespace Vraw

/-! ### Bit packer (VrawWriter.cpp, packFrame10Bit / packFrame12Bit) -/

/-- One pass of the inner `while (bitCount >= 8)` loop of `packFrame10Bit`:
emits `bitBuffer & 0xFF`, then shifts `bitBuffer >>= 8`, `bitCount -= 8`.
The loop runs `bitCount / 8` times; every iteration removes 8 from `bitCount`,
so `bitCount` itself is sufficient fuel.  Returns the emitted bytes together
with the final `(bitBuffer, bitCount)`. -/
def emit8Fuel : Nat → Nat → Nat → List Nat × Nat × Nat
  | 0, bb, bc => ([], bb, bc)
  | fuel + 1, bb, bc =>
      if 8 ≤ bc then
        -- dst[outIdx++] = bitBuffer & 0xFF; bitBuffer >>= 8; bitCount -= 8;
        let r := emit8Fuel fuel (bb / 256) (bc - 8)
        ((bb % 256) :: r.1, r.2)
      else ([], bb, bc)

/-- The inner emission loop of `packFrame10Bit`, with fuel `bitCount`. -/
def emit8 (bb bc : Nat) : List Nat × Nat × Nat := emit8Fuel bc bb bc

/-- Main loop of `packFrame10Bit`.  For every sample:
`bitBuffer |= (src[i] & 0x3FF) << bitCount; bitCount += 10;` then the inner
emission loop.  Since `bitBuffer < 2^bitCount` at every loop head, the OR is
a plain addition.  After the loop: `if (bitCount > 0) dst[outIdx++] = bitBuffer & 0xFF`. -/
def pack10Go : List Nat → Nat → Nat → List Nat
  | [], bb, bc => if 0 < bc then [bb % 256] else []
  | s :: rest, bb, bc =>
      let e := emit8 (bb + (s % 1024) * 2 ^ bc) (bc + 10)
      e.1 ++ pack10Go rest e.2.1 e.2.2

/-- `VrawWriter::packFrame10Bit`: packs the samples and zero-pads the output
buffer (the final `memset`) to `packedBytes = (pixelCount * 10 + 7) / 8`. -/
def packFrame10Bit (src : List Nat) : List Nat :=
  let raw := pack10Go src 0 0
  raw ++ List.replicate ((src.length * 10 + 7) / 8 - raw.length) 0

/-- Main loop of `packFrame12Bit`.  A pair (pixel1, pixel2) with
`pixel1 = src[i] & 0xFFF`, `pixel2 = src[i+1] & 0xFFF` becomes
`(pixel1 >> 4) & 0xFF`, `((pixel1 & 0xF) << 4) | ((pixel2 >> 8) & 0xF)`,
`pixel2 & 0xFF`; an odd trailing sample becomes
`(pixel1 >> 4) & 0xFF`, `(pixel1 & 0xF) << 4`. -/
def pack12Go : List Nat → List Nat
  | [] => []
  | [p] => [p % 4096 / 16 % 256, p % 4096 % 16 * 16]
  | p :: q :: rest =>
      p % 4096 / 16 % 256 ::
      (p % 4096 % 16 * 16 + q % 4096 / 256 % 16) ::
      q % 4096 % 256 ::
      pack12Go rest

/-- `VrawWriter::packFrame12Bit`: packs the samples and zero-pads the output
buffer (the final `memset`) to `packedBytes = (pixelCount * 3 + 1) / 2`. -/
def packFrame12Bit (src : List Nat) : List Nat :=
  let raw := pack12Go src
  raw ++ List.replicate ((src.length * 3 + 1) / 2 - raw.length) 0

/-! ### Bit unpacker (VrawReader.cpp, unpackFrame10Bit / unpackFrame12Bit) -/

/-- Inner fill loop of `unpackFrame10Bit`:
`while (bitCount < 10 && srcIdx < srcBytes) { bitBuffer |= src[srcIdx++] << bitCount; bitCount += 8; }`.
Returns the remaining source bytes and the updated `(bitBuffer, bitCount)`.
Again `bitBuffer < 2^bitCount`, so the OR is an addition. -/
def fill10 : List Nat → Nat → Nat → List Nat × Nat × Nat
  | [], bb, bc => ([], bb, bc)
  | b :: rest, bb, bc =>
      if bc < 10 then fill10 rest (bb + b * 2 ^ bc) (bc + 8)
      else (b :: rest, bb, bc)

/-- Outer loop of `unpackFrame10Bit`:
`while (pixelIdx < pixelCount && srcIdx < srcBytes)`, fill, then
`if (bitCount >= 10) { dst[pixelIdx++] = bitBuffer & 0x3FF; bitBuffer >>= 10; bitCount -= 10; }`.
When the fill loop stops with fewer than 10 bits the source has been
exhausted, so the outer loop exits with no further sample emitted; that exit
is rendered as the `else` branch returning `[]`. -/
def unpack10Go : List Nat → Nat → Nat → Nat → List Nat
  | _, _, _, 0 => []
  | [], _, _, _ + 1 => []
  | b :: rest, bb, bc, n + 1 =>
      let t := fill10 (b :: rest) bb bc
      if 10 ≤ t.2.2 then t.2.1 % 1024 :: unpack10Go t.1 (t.2.1 / 1024) (t.2.2 - 10) n
      else []

/-- `unpackFrame10Bit` (file-static in VrawReader.cpp): the destination is
resized to `pixelCount` 16-bit samples, all zero, and the decoded prefix is
written over it.  The source is exactly the `srcBytes` input bytes, so the
function cannot read past the buffer by construction. -/
def unpackFrame10Bit (src : List Nat) (pixelCount : Nat) : List Nat :=
  let decoded := unpack10Go src 0 0 pixelCount
  decoded ++ List.replicate (pixelCount - decoded.length) 0

/-- Loops of `unpackFrame12Bit`.  The main loop requires three whole bytes
(`srcIdx + 2 < srcBytes`) and emits
`(b0 << 4) | ((b1 >> 4) & 0x0F)` and, if a pixel slot remains,
`((b1 & 0x0F) << 8) | b2`.  After it, the trailing handler emits one more
sample from a remaining byte pair (`srcIdx + 1 < srcBytes`). -/
def unpack12Go : Nat → List Nat → List Nat
  | 0, _ => []
  | n + 1, b0 :: b1 :: b2 :: rest =>
      match n with
      | 0 => [b0 * 16 + b1 / 16 % 16]
      | m + 1 => (b0 * 16 + b1 / 16 % 16) :: (b1 % 16 * 256 + b2) :: unpack12Go m rest
  | _ + 1, [b0, b1] => [b0 * 16 + b1 / 16 % 16]
  | _ + 1, _ => []

/-- `unpackFrame12Bit` (file-static in VrawReader.cpp): zero destination of
`pixelCount` samples, decoded prefix written over it. -/
def unpackFrame12Bit (src : List Nat) (pixelCount : Nat) : List Nat :=
  let decoded := unpack12Go pixelCount src
  decoded ++ List.replicate (pixelCount - decoded.length) 0

/-! ### Numeric value helpers for the packer proofs -/

/-- Value of a byte list read as a little-endian base-256 number. -/
def byteVal : List Nat → Nat
  | [] => 0
  | b :: t => b + 256 * byteVal t

/-- Value of a sample list read as a little-endian base-1024 number,
with each sample masked to 10 bits as the packer does. -/
def sampleVal10 : List Nat → Nat
  | [] => 0
  | s :: t => s % 1024 + 1024 * sampleVal10 t

/-- The first `n` base-1024 digits of a number, least significant first. -/
def digits1024 : Nat → Nat → List Nat
  | 0, _ => []
  | n + 1, v => v % 1024 :: digits1024 n (v / 1024)

/-! ### Writer state machine (VrawWriter.cpp, init / start / submitFrame / stop)

The mutable fields of `VrawWriter` that the control flow reads or writes.
File I/O is abstracted: `fileOpen` models `outputFile_ != nullptr`, the
`fopenOk` argument of `init` models whether `fopen` succeeds, and `dataValid`
models `data != nullptr` in `submitFrame`. -/

structure WriterSM where
  fileOpen : Bool
  recording : Bool
  width : Nat
  height : Nat
  writePacked : Bool
  useCompression : Bool
  frameNumber : Nat
  bytesWritten : Nat
  frameOffsets : List Nat
deriving DecidableEq, Repr

namespace VrawWriter

/-- `VrawWriter::init`.  Returns (result, new state, whether `fopen` was
reached).  The early-out checks `if (outputFile_) return false;` and
`if (width == 0 || height == 0 || outputPath.empty()) return false;` happen
before any field assignment and before `fopen`.  On the success path the
configuration fields are assigned, then `fopen` runs (failure leaves the file
unopened), then the 512-byte file header is written. -/
def init (s : WriterSM) (width height : Nat) (pathEmpty : Bool)
    (usePacking useCompression fopenOk : Bool) : Bool × WriterSM × Bool :=
  if s.fileOpen then (false, s, false)
  else if width = 0 ∨ height = 0 ∨ pathEmpty then (false, s, false)
  else
    let s1 : WriterSM :=
      { s with width := width, height := height,
               writePacked := usePacking, useCompression := useCompression,
               frameNumber := 0, bytesWritten := 0 }
    if fopenOk then
      (true, { s1 with fileOpen := true, bytesWritten := 512 }, true)
    else (false, s1, true)

/-- `VrawWriter::start`: fails when no file is open or already recording;
otherwise enters recording, clearing the frame counter and offset table. -/
def start (s : WriterSM) : Bool × WriterSM :=
  if s.fileOpen = false ∨ s.recording = true then (false, s)
  else (true, { s with recording := true, frameNumber := 0, frameOffsets := [] })

/-- State transition of `VrawWriter::submitFrame`:
`if (!isRecording_ || !outputFile_ || !data) return false;` else the frame
offset is recorded, the frame number incremented and the 64-byte header plus
`payloadBytes` of payload are appended. -/
def submitFrame (s : WriterSM) (dataValid : Bool) (payloadBytes : Nat) : Bool × WriterSM :=
  if s.recording = false ∨ s.fileOpen = false ∨ dataValid = false then (false, s)
  else
    (true, { s with frameOffsets := s.frameOffsets ++ [s.bytesWritten],
                    frameNumber := s.frameNumber + 1,
                    bytesWritten := s.bytesWritten + 64 + payloadBytes })

/-- `VrawWriter::stop` (audio disabled): fails unless a file is open and
recording; otherwise appends the index table (8 bytes per frame) and the
16-byte index trailer, patches the fixed header, and clears `isRecording_`.
The output file stays open. -/
def stop (s : WriterSM) : Bool × WriterSM :=
  if s.fileOpen = false ∨ s.recording = false then (false, s)
  else
    (true, { s with recording := false,
                    bytesWritten := s.bytesWritten + 8 * s.frameOffsets.length + 16 })

end VrawWriter

/-! ### submitFrame payload and size fields (VrawWriter.cpp, submitFrame) -/

/-- Little-endian bytes of a list of 16-bit samples: the unpacked payload is
the raw sample buffer reinterpreted as bytes. -/
def toBytes16 : List Nat → List Nat
  | [] => []
  | s :: t => s % 65536 % 256 :: s % 65536 / 256 :: toBytes16 t

/-- The packing step of `VrawWriter::submitFrame`: when `writePacked_`, the
pack function of the active bit depth runs; otherwise the payload is the raw
16-bit sample buffer viewed as bytes. -/
def packedPayload (writePacked is12Bit : Bool) (data : List Nat) : List Nat :=
  if writePacked then
    (if is12Bit then packFrame12Bit data else packFrame10Bit data)
  else toBytes16 data

/-- The payload and size-field computation of `VrawWriter::submitFrame`,
after any log encoding: packing, then the LZ4 step.  `compress` abstracts
`LZ4_compress_default` (returning the compressed bytes; an empty result
models a compression failure, `compressedSize <= 0`).  Returns
(`fh.compressed_size`, `fh.uncompressed_size`, payload bytes written).
With compression enabled the compressor result is kept only if
`0 < compressedSize && compressedSize < payloadBytes`, else
`fh.compressed_size = 0`.  With compression disabled the code sets
`fh.compressed_size = writePacked_ ? payloadBytes : 0`. -/
def submitFrameData (useCompression writePacked is12Bit : Bool)
    (data : List Nat) (compress : List Nat → List Nat) : Nat × Nat × List Nat :=
  let pp := packedPayload writePacked is12Bit data
  let payloadBytes := pp.length
  if useCompression then
    let comp := compress pp
    if 0 < comp.length ∧ comp.length < payloadBytes then
      (comp.length, payloadBytes, comp)
    else (0, payloadBytes, pp)
  else
    ((if writePacked then payloadBytes else 0), payloadBytes, pp)

/-! ### File header parsing (VrawReader.cpp, readFileHeader) -/

/-- The on-disk `SimpleFileHeader` as read into memory (field values, all
unsigned little-endian scalars as Nat; `sensor_orientation` is int32). -/
structure RawFileHeader where
  magic : List Nat
  version : Nat
  width : Nat
  height : Nat
  bayer_pattern : Nat
  encoding : Nat
  compression : Nat
  black_level : List Nat
  white_level : Nat
  frame_count : Nat
  index_offset : Nat
  native_width : Nat
  native_height : Nat
  binning_num : Nat
  binning_den : Nat
  has_audio : Nat
  audio_channels : Nat
  audio_bit_depth : Nat
  audio_sample_rate : Nat
  audio_offset : Nat
  audio_start_time_us : Nat
  has_timecode : Nat
  timecode_format : Nat
  timecode_fps : Nat
  timecode_drop_frame : Nat
  timecode_start_frame : Nat
  timecode_hours : Nat
  timecode_minutes : Nat
  timecode_seconds : Nat
  timecode_frames : Nat
  sensor_orientation : Int

/-- Timecode fields of the parsed header (VrawTypes.h `Timecode`). -/
structure TimecodeP where
  hours : Nat
  minutes : Nat
  seconds : Nat
  frames : Nat
  fps : Nat
  dropFrame : Bool
  format : Nat
deriving DecidableEq, Repr

/-- The zero timecode left by the constructor memset when none is parsed. -/
def zeroTimecode : TimecodeP := ⟨0, 0, 0, 0, 0, false, 0⟩

/-- The parsed `FileHeader` (VrawTypes.h) as filled in by
`VrawReader::readFileHeader`. -/
structure ParsedFileHeader where
  version : Nat
  width : Nat
  height : Nat
  bayerPattern : Nat
  encoding : Nat
  compression : Nat
  blackLevel : List Nat
  whiteLevel : Nat
  frameCount : Nat
  indexOffset : Nat
  nativeWidth : Nat
  nativeHeight : Nat
  binningNum : Nat
  binningDen : Nat
  hasAudio : Bool
  audioChannels : Nat
  audioBitDepth : Nat
  audioSampleRate : Nat
  audioOffset : Nat
  audioStartTimeUs : Nat
  hasTimecode : Bool
  timecode : TimecodeP
  sensorOrientation : Int
deriving DecidableEq, Repr

/-- The `"VRAW"` magic bytes. -/
def vrawMagic : List Nat := [86, 82, 65, 87]

/-- The legacy `"MRAW"` magic bytes. -/
def mrawMagic : List Nat := [77, 82, 65, 87]

/-- `VrawReader::readFileHeader`, given the raw struct contents: rejects
unless the magic is `"VRAW"` or `"MRAW"`; copies the common fields; for
`version >= 2` copies the v2 fields (defaulting nonpositive binning terms
to 1, parsing timecode only when flagged); for `version < 2` synthesizes
defaults: native == effective resolution, binning 1:1, no audio, no
timecode, orientation 0.  Audio scalar fields keep the zeroed state from
the constructor memset in the legacy branch. -/
def readFileHeader (raw : RawFileHeader) : Option ParsedFileHeader :=
  if raw.magic ≠ vrawMagic ∧ raw.magic ≠ mrawMagic then none
  else some
    { version := raw.version
      width := raw.width
      height := raw.height
      bayerPattern := raw.bayer_pattern
      encoding := raw.encoding
      compression := raw.compression
      blackLevel := raw.black_level
      whiteLevel := raw.white_level
      frameCount := raw.frame_count
      indexOffset := raw.index_offset
      nativeWidth := if 2 ≤ raw.version then raw.native_width else raw.width
      nativeHeight := if 2 ≤ raw.version then raw.native_height else raw.height
      binningNum := if 2 ≤ raw.version then (if 0 < raw.binning_num then raw.binning_num else 1) else 1
      binningDen := if 2 ≤ raw.version then (if 0 < raw.binning_den then raw.binning_den else 1) else 1
      hasAudio := if 2 ≤ raw.version then raw.has_audio ≠ 0 else false
      audioChannels := if 2 ≤ raw.version then raw.audio_channels else 0
      audioBitDepth := if 2 ≤ raw.version then raw.audio_bit_depth else 0
      audioSampleRate := if 2 ≤ raw.version then raw.audio_sample_rate else 0
      audioOffset := if 2 ≤ raw.version then raw.audio_offset else 0
      audioStartTimeUs := if 2 ≤ raw.version then raw.audio_start_time_us else 0
      hasTimecode := if 2 ≤ raw.version then raw.has_timecode ≠ 0 else false
      timecode :=
        if 2 ≤ raw.version ∧ raw.has_timecode ≠ 0 then
          { hours := raw.timecode_hours, minutes := raw.timecode_minutes,
            seconds := raw.timecode_seconds, frames := raw.timecode_frames,
            fps := raw.timecode_fps, dropFrame := raw.timecode_drop_frame ≠ 0,
            format := raw.timecode_format }
        else zeroTimecode
      sensorOrientation := if 2 ≤ raw.version then raw.sensor_orientation else 0 }

/-! ### Logarithmic pixel transform (Encoding.cpp)

The scalar reference encoders.  The float arithmetic of the source is
modelled over the real numbers: `log2f(x)` becomes `Real.logb 2 x` and the
truncating `static_cast<uint16_t>` of a nonnegative value becomes `Nat.floor`.
The integer subtraction, the clip to code 0 and the final clamp are exact. -/

/-- `encodePixelLog10Bit(pixel, blackLevel, whiteLevel)`:
`linear = pixel - blackLevel; if (linear <= 0) return 0;`
`normalized = min(1, max(0, linear / (whiteLevel - blackLevel)))`,
`encoded = log2(normalized * 1023 + 1) / log2(1024)`,
`result = (uint16) (encoded * 1023 + 0.5)`, clamped to 1023. -/
noncomputable def encodePixelLog10Bit (pixel blackLevel whiteLevel : Nat) : Nat :=
  let linear : Int := (pixel : Int) - (blackLevel : Int)
  if linear ≤ 0 then 0
  else
    let normalized : ℝ := min 1 (max 0 ((linear : ℝ) / ((whiteLevel : ℝ) - (blackLevel : ℝ))))
    let encoded : ℝ := Real.logb 2 (normalized * 1023 + 1) / Real.logb 2 1024
    min ⌊encoded * 1023 + 0.5⌋₊ 1023

/-- `encodePixelLog12Bit`: same shape with 4095 / 4096. -/
noncomputable def encodePixelLog12Bit (pixel blackLevel whiteLevel : Nat) : Nat :=
  let linear : Int := (pixel : Int) - (blackLevel : Int)
  if linear ≤ 0 then 0
  else
    let normalized : ℝ := min 1 (max 0 ((linear : ℝ) / ((whiteLevel : ℝ) - (blackLevel : ℝ))))
    let encoded : ℝ := Real.logb 2 (normalized * 4095 + 1) / Real.logb 2 4096
    min ⌊encoded * 4095 + 0.5⌋₊ 4095

/-! ### File bytes, index recovery and open (VrawReader.cpp / VrawWriter.cpp)

The file is a list of bytes.  Multi-byte scalars are little-endian. -/

/-- Little-endian bytes of a 32-bit value. -/
def le32 (n : Nat) : List Nat :=
  [n % 256, n / 256 % 256, n / 65536 % 256, n / 16777216 % 256]

/-- Little-endian bytes of a 64-bit value. -/
def le64 (n : Nat) : List Nat :=
  [n % 256, n / 256 % 256, n / 65536 % 256, n / 16777216 % 256,
   n / 4294967296 % 256, n / 1099511627776 % 256,
   n / 281474976710656 % 256, n / 72057594037927936 % 256]

/-- Read a little-endian uint32 at byte offset `off` (reads past the end
yield 0; the callers below only read inside the buffer). -/
def readLE32 (bytes : List Nat) (off : Nat) : Nat :=
  bytes.getD off 0 + 256 * bytes.getD (off + 1) 0 +
    65536 * bytes.getD (off + 2) 0 + 16777216 * bytes.getD (off + 3) 0

/-- Read a little-endian uint64 at byte offset `off`. -/
def readLE64 (bytes : List Nat) (off : Nat) : Nat :=
  readLE32 bytes off + 4294967296 * readLE32 bytes (off + 4)

/-- A frame as accepted by `VrawWriter::submitFrame`: the header fields the
index scan reads, plus the payload bytes actually written.  The camera
metadata floats and the reserved bytes of `SimpleFrameHeader` are modelled
as zero bytes; the scan never reads them. -/
structure FrameRec where
  timestamp : Nat
  csize : Nat
  usize : Nat
  payload : List Nat
deriving DecidableEq, Repr

/-- Payload size used both by the writer and by the reader scan:
`compressed_size` if nonzero, else `uncompressed_size`. -/
def frameDataSize (f : FrameRec) : Nat := if 0 < f.csize then f.csize else f.usize

/-- The 64-byte `SimpleFrameHeader` as written: timestamp (8), frame number
(4), compressed size (4), uncompressed size (4), then the forty-four bytes
of camera metadata, dynamic black level and reserved space. -/
def frameHeaderBytes (f : FrameRec) (frameNumber : Nat) : List Nat :=
  le64 f.timestamp ++ le32 frameNumber ++ le32 f.csize ++ le32 f.usize ++
    List.replicate 44 0

/-- The byte stream of the frames section: for each frame, its 64-byte
header followed by its payload, frame numbers counting up from `i`. -/
def framesBytes : Nat → List FrameRec → List Nat
  | _, [] => []
  | i, f :: rest => frameHeaderBytes f i ++ f.payload ++ framesBytes (i + 1) rest

/-- The 512-byte `SimpleFileHeader` as the writer lays it out, after the
`stop()` patch of `frame_count` (offset 32) and `index_offset` (offset 36):
magic "VRAW", version 2, width, height, then the bayer / encoding /
compression / level block (16 bytes), frame count, index offset, and the
remaining fields.  Bytes that index acquisition never reads (levels, v2
geometry, audio, timecode, reserved) are modelled as zero. -/
def fileHeaderBytes (width height frameCount indexOffset : Nat) : List Nat :=
  (vrawMagic ++ le32 2 ++ le32 width ++ le32 height ++ List.replicate 16 0) ++
    le32 frameCount ++ le64 indexOffset ++ List.replicate 468 0

/-- Frame start offsets as the writer records them: the first frame header
goes at `pos`, each next one `64 + dataSize` later. -/
def frameOffsets : Nat → List FrameRec → List Nat
  | _, [] => []
  | pos, f :: rest => pos :: frameOffsets (pos + 64 + frameDataSize f) rest

/-- Loop of `VrawReader::buildSequentialIndex`.  The loop variable `count`
runs up to `frameCount`; `remaining = frameCount - count` is the structural
fuel.  Condition: `pos + FRAME_HEADER_SIZE <= fileLen && count < frameCount`;
then `dataSize = compressed_size > 0 ? compressed_size : uncompressed_size`;
`dataSize == 0` or a payload reaching past EOF stops the scan before adding
the current frame. -/
def buildSeqIdxAux (bytes : List Nat) : Nat → Nat → List Nat
  | _, 0 => []
  | pos, remaining + 1 =>
      if pos + 64 ≤ bytes.length then
        let csize := readLE32 bytes (pos + 12)
        let usize := readLE32 bytes (pos + 16)
        let dataSize := if 0 < csize then csize else usize
        if dataSize = 0 then []
        else if bytes.length < pos + 64 + dataSize then []
        else pos :: buildSeqIdxAux bytes (pos + 64 + dataSize) remaining
      else []

/-- `VrawReader::buildSequentialIndex`: scan from the end of the fixed
512-byte header; succeeds iff the rebuilt index is nonempty. -/
def buildSequentialIndex (bytes : List Nat) (frameCount : Nat) : List Nat :=
  buildSeqIdxAux bytes 512 frameCount

/-- The entries read by `VrawReader::readIndexTable`. -/
def readIndexEntries (bytes : List Nat) (indexOffset frameCount : Nat) : List Nat :=
  (List.range frameCount).map fun i => readLE64 bytes (indexOffset + 8 * i)

/-- `VrawReader::validateIndex`: a nonempty index all of whose offsets lie
at or after the fixed header and strictly before end of file. -/
def validateIndex (idx : List Nat) (fileLen : Nat) : Bool :=
  !idx.isEmpty && idx.all fun o => decide (512 ≤ o ∧ o < fileLen)

/-- Index acquisition as sequenced in `VrawReader::open`:
`if (!readIndexTable()) { if (!buildSequentialIndex()) fail; }` then
`if (!validateIndex()) { if (!buildSequentialIndex()) fail; }`.
`readOk` is the success condition of `readIndexTable` (nonzero index offset
and frame count and every per-entry `fread` inside the file — a read past
EOF fails).  `idx1` is the reader frame index after the first phase; when
the direct read failed and the rebuilt index is empty, `open` fails.  A
validation failure triggers one more rebuild, which recomputes the same
scan result and succeeds iff it is nonempty.  `none` means `open` fails
with the reader closed. -/
def acquireIndex (bytes : List Nat) (frameCount indexOffset : Nat) : Option (List Nat) :=
  let seq := buildSequentialIndex bytes frameCount
  let readOk : Prop :=
    indexOffset ≠ 0 ∧ frameCount ≠ 0 ∧ indexOffset + 8 * frameCount ≤ bytes.length
  let idx1 := if readOk then readIndexEntries bytes indexOffset frameCount else seq
  if ¬ readOk ∧ seq = [] then none
  else if validateIndex idx1 bytes.length then some idx1
  else if seq ≠ [] then some seq
  else none

/-- `VrawReader::open` on a byte buffer: the 512-byte header must be
readable and carry an accepted magic; `frame_count` sits at offset 32 and
`index_offset` at offset 36; then index acquisition must yield an index.
The other parsed header fields do not influence the result of `open`. -/
def vrawOpen (bytes : List Nat) : Option (List Nat) :=
  if bytes.length < 512 then none
  else if bytes.take 4 ≠ vrawMagic ∧ bytes.take 4 ≠ mrawMagic then none
  else acquireIndex bytes (readLE32 bytes 32) (readLE64 bytes 36)

/-- Well-formedness of a frame as the writer emits it: the payload written
is exactly `dataSize` bytes, nonzero (the writer always has
`uncompressed_size = pixelCount * 2 > 0`, and an accepted compression
result is positive), and the header fields fit their 32-bit slots. -/
def frameWF (f : FrameRec) : Prop :=
  f.payload.length = frameDataSize f ∧ 0 < frameDataSize f ∧
    f.csize < 4294967296 ∧ f.usize < 4294967296

instance (f : FrameRec) : Decidable (frameWF f) := by
  unfold frameWF
  infer_instance

/-- The file a finalized writer session leaves behind once the bytes from
the index offset to end of file are deleted: fixed header (with the patched
frame count and index offset) followed by the frames section only. -/
def truncatedSessionFile (width height : Nat) (frames : List FrameRec) : List Nat :=
  fileHeaderBytes width height frames.length (512 + (framesBytes 0 frames).length) ++
    framesBytes 0 frames

/-! ## Theorems -/

/-! ### Packer / unpacker machinery -/

/-- Induction two list elements at a time, as the 12-bit packer walks. -/
theorem twoStepInduction {P : List Nat → Prop} (h0 : P []) (h1 : ∀ a, P [a])
    (h2 : ∀ a b t, P t → P (a :: b :: t)) : ∀ l, P l := by
  have key : ∀ n l, List.length l ≤ n → P l := by
    intro n
    induction n with
    | zero =>
      intro l hl
      cases l with
      | nil => exact h0
      | cons a t => simp at hl
    | succ n ih =>
      intro l hl
      match l with
      | [] => exact h0
      | [a] => exact h1 a
      | a :: b :: t =>
        exact h2 a b t (ih t (by simp at hl; omega))
  exact fun l => key l.length l le_rfl

/-- Base-256 value of concatenated byte lists. -/
theorem byteVal_append (a b : List Nat) :
    byteVal (a ++ b) = byteVal a + 256 ^ a.length * byteVal b := by
  induction a with
  | nil => simp [byteVal]
  | cons x t ih =>
    show x + 256 * byteVal (t ++ b) = x + 256 * byteVal t + 256 ^ (t.length + 1) * byteVal b
    rw [ih, pow_succ]
    ring

/-- The emission loop with enough fuel: final bit count `bc % 8`, one byte
per 8 whole bits, value preserved, and the live-bit bound maintained. -/
theorem emit8Fuel_spec : ∀ (fuel bb bc : Nat), bc ≤ fuel →
    (emit8Fuel fuel bb bc).2.2 = bc % 8 ∧
    (emit8Fuel fuel bb bc).1.length = bc / 8 ∧
    byteVal (emit8Fuel fuel bb bc).1
        + 256 ^ (bc / 8) * (emit8Fuel fuel bb bc).2.1 = bb ∧
    (bb < 2 ^ bc → (emit8Fuel fuel bb bc).2.1 < 2 ^ (bc % 8)) := by
  intro fuel
  induction fuel with
  | zero =>
    intro bb bc h
    have hbc : bc = 0 := by omega
    subst hbc
    simp [emit8Fuel, byteVal]
  | succ fuel ih =>
    intro bb bc h
    by_cases h8 : 8 ≤ bc
    · obtain ⟨e1, e2, e3, e4⟩ := ih (bb / 256) (bc - 8) (by omega)
      simp only [emit8Fuel, if_pos h8]
      refine ⟨by rw [e1]; omega, by simp [e2]; omega, ?_, ?_⟩
      · show bb % 256 + 256 * byteVal (emit8Fuel fuel (bb / 256) (bc - 8)).1
            + 256 ^ (bc / 8) * (emit8Fuel fuel (bb / 256) (bc - 8)).2.1 = bb
        have h256 : (256 : Nat) ^ (bc / 8) = 256 * 256 ^ ((bc - 8) / 8) := by
          have hq : bc / 8 = (bc - 8) / 8 + 1 := by omega
          rw [hq, pow_succ]
          ring
        rw [h256, mul_assoc]
        generalize byteVal (emit8Fuel fuel (bb / 256) (bc - 8)).1 = A at e3
        generalize (256 : Nat) ^ ((bc - 8) / 8)
            * (emit8Fuel fuel (bb / 256) (bc - 8)).2.1 = B at e3 ⊢
        omega
      · intro hbb
        have hpow : (2 : Nat) ^ bc = 256 * 2 ^ (bc - 8) := by
          have h2 : (2 : Nat) ^ bc = 2 ^ (bc - 8 + 8) := by
            congr 1
            omega
          rw [h2, pow_add]
          show 2 ^ (bc - 8) * 256 = 256 * 2 ^ (bc - 8)
          exact Nat.mul_comm _ _
        have hdiv : bb / 256 < 2 ^ (bc - 8) :=
          Nat.div_lt_of_lt_mul (by rw [← hpow]; exact hbb)
        have hres := e4 hdiv
        have hm : (bc - 8) % 8 = bc % 8 := by omega
        rw [hm] at hres
        exact hres
    · simp only [emit8Fuel, if_neg h8]
      have hm : bc % 8 = bc := by omega
      have hd : bc / 8 = 0 := by omega
      exact ⟨hm.symm, by simp [hd], by simp [byteVal, hd], by rw [hm]; exact id⟩

/-- Every byte the emission loop produces is below 256. -/
theorem emit8Fuel_bytes : ∀ (fuel bb bc : Nat),
    ∀ x ∈ (emit8Fuel fuel bb bc).1, x < 256 := by
  intro fuel
  induction fuel with
  | zero => intro bb bc x hx; simp [emit8Fuel] at hx
  | succ fuel ih =>
    intro bb bc x hx
    by_cases h8 : 8 ≤ bc
    · simp only [emit8Fuel, if_pos h8] at hx
      rcases List.mem_cons.mp hx with hx | hx
      · subst hx; exact Nat.mod_lt _ (by norm_num)
      · exact ih _ _ x hx
    · simp [emit8Fuel, if_neg h8] at hx

/-- The 10-bit pack loop: the emitted bytes carry the pending bits followed
by the 10-bit little-endian sample stream, and their count is exactly the
whole bit count rounded up to bytes. -/
theorem pack10Go_spec : ∀ (xs : List Nat) (bb bc : Nat), bb < 2 ^ bc → bc ≤ 7 →
    byteVal (pack10Go xs bb bc) = bb + 2 ^ bc * sampleVal10 xs ∧
    (pack10Go xs bb bc).length = (bc + xs.length * 10 + 7) / 8 := by
  intro xs
  induction xs with
  | nil =>
    intro bb bc hbb hbc
    by_cases h0 : 0 < bc
    · have : bb % 256 = bb := Nat.mod_eq_of_lt (by
        have : (2 : Nat) ^ bc ≤ 2 ^ 7 := Nat.pow_le_pow_right (by norm_num) hbc
        omega)
      simp only [pack10Go, if_pos h0, byteVal, sampleVal10]
      constructor
      · omega
      · simp; omega
    · have hbc0 : bc = 0 := by omega
      subst hbc0
      have hbb0 : bb = 0 := by omega
      subst hbb0
      simp [pack10Go, byteVal, sampleVal10]
  | cons s rest ih =>
    intro bb bc hbb hbc
    simp only [pack10Go, emit8]
    have hbb2 : bb + s % 1024 * 2 ^ bc < 2 ^ (bc + 10) := by
      have hs : s % 1024 < 1024 := Nat.mod_lt _ (by norm_num)
      have h1 : bb + s % 1024 * 2 ^ bc < (1 + s % 1024) * 2 ^ bc := by nlinarith
      have h2 : (1 + s % 1024) * 2 ^ bc ≤ 1024 * 2 ^ bc :=
        Nat.mul_le_mul_right _ (by omega)
      have h3 : (2 : Nat) ^ (bc + 10) = 1024 * 2 ^ bc := by rw [pow_add]; ring
      omega
    obtain ⟨e1, e2, e3, e4⟩ :=
      emit8Fuel_spec (bc + 10) (bb + s % 1024 * 2 ^ bc) (bc + 10) le_rfl
    set E := emit8Fuel (bc + 10) (bb + s % 1024 * 2 ^ bc) (bc + 10) with hE
    have hbb' : E.2.1 < 2 ^ ((bc + 10) % 8) := e4 hbb2
    obtain ⟨v', l'⟩ := ih E.2.1 E.2.2
      (by rw [e1]; exact hbb') (by rw [e1]; omega)
    constructor
    · rw [byteVal_append, v', e1, e2]
      have hsplit : (256 : Nat) ^ ((bc + 10) / 8) * 2 ^ ((bc + 10) % 8)
          = 2 ^ (bc + 10) := by
        have h8 : (256 : Nat) = 2 ^ 8 := by norm_num
        rw [h8, ← pow_mul, ← pow_add]
        congr 1
        omega
      rw [Nat.mul_add, ← mul_assoc, hsplit, ← Nat.add_assoc, e3]
      show bb + s % 1024 * 2 ^ bc + 2 ^ (bc + 10) * sampleVal10 rest
          = bb + 2 ^ bc * (s % 1024 + 1024 * sampleVal10 rest)
      have h3 : (2 : Nat) ^ (bc + 10) = 2 ^ bc * 1024 := by
        rw [pow_add]; norm_num
      rw [h3]
      ring
    · rw [List.length_append, l', e1, e2]
      simp only [List.length_cons]
      omega

/-- Every byte the 10-bit pack loop emits is below 256. -/
theorem pack10Go_bytes : ∀ (xs : List Nat) (bb bc : Nat), bb < 2 ^ bc → bc ≤ 7 →
    ∀ x ∈ pack10Go xs bb bc, x < 256 := by
  intro xs
  induction xs with
  | nil =>
    intro bb bc hbb hbc x hx
    by_cases h0 : 0 < bc
    · simp only [pack10Go, if_pos h0, List.mem_singleton] at hx
      subst hx
      exact Nat.mod_lt _ (by norm_num)
    · simp [pack10Go, h0] at hx
  | cons s rest ih =>
    intro bb bc hbb hbc x hx
    simp only [pack10Go, emit8] at hx
    have hbb2 : bb + s % 1024 * 2 ^ bc < 2 ^ (bc + 10) := by
      have hs : s % 1024 < 1024 := Nat.mod_lt _ (by norm_num)
      have h1 : bb + s % 1024 * 2 ^ bc < (1 + s % 1024) * 2 ^ bc := by nlinarith
      have h2 : (1 + s % 1024) * 2 ^ bc ≤ 1024 * 2 ^ bc :=
        Nat.mul_le_mul_right _ (by omega)
      have h3 : (2 : Nat) ^ (bc + 10) = 1024 * 2 ^ bc := by rw [pow_add]; ring
      omega
    obtain ⟨e1, e2, e3, e4⟩ :=
      emit8Fuel_spec (bc + 10) (bb + s % 1024 * 2 ^ bc) (bc + 10) le_rfl
    rcases List.mem_append.mp hx with hx | hx
    · exact emit8Fuel_bytes _ _ _ x hx
    · refine ih _ _ ?_ ?_ x hx
      · rw [e1]; exact e4 hbb2
      · rw [e1]; omega

/-- `packFrame10Bit` needs no padding: the loop already fills
`(pixelCount * 10 + 7) / 8` bytes. -/
theorem packFrame10Bit_eq_go (xs : List Nat) :
    packFrame10Bit xs = pack10Go xs 0 0 := by
  show pack10Go xs 0 0
      ++ List.replicate ((xs.length * 10 + 7) / 8 - (pack10Go xs 0 0).length) 0
    = pack10Go xs 0 0
  rw [(pack10Go_spec xs 0 0 (by norm_num) (by norm_num)).2]
  simp

/-- Length of the 10-bit packed buffer. -/
theorem packFrame10Bit_length (xs : List Nat) :
    (packFrame10Bit xs).length = (xs.length * 10 + 7) / 8 := by
  rw [packFrame10Bit_eq_go, (pack10Go_spec xs 0 0 (by norm_num) (by norm_num)).2]
  omega

/-- With at least 2 pending bits, the fill loop consumes exactly one byte. -/
theorem fill10_ge2 (b : Nat) (rest : List Nat) (bb bc : Nat)
    (h2 : 2 ≤ bc) (h10 : bc < 10) :
    fill10 (b :: rest) bb bc = (rest, bb + b * 2 ^ bc, bc + 8) := by
  cases rest with
  | nil => simp [fill10, h10]
  | cons c t =>
    have h8 : ¬ (bc + 8 < 10) := by omega
    simp [fill10, h10, h8]

/-- With fewer than 2 pending bits and one byte left, the fill loop consumes
it and still holds fewer than 10 bits. -/
theorem fill10_lt2_one (b : Nat) (bb bc : Nat) (h2 : bc < 2) :
    fill10 [b] bb bc = ([], bb + b * 2 ^ bc, bc + 8) := by
  simp [fill10, show bc < 10 by omega]

/-- With fewer than 2 pending bits and two bytes available, the fill loop
consumes both. -/
theorem fill10_lt2_two (b c : Nat) (t : List Nat) (bb bc : Nat) (h2 : bc < 2) :
    fill10 (b :: c :: t) bb bc
      = (t, bb + b * 2 ^ bc + c * 2 ^ (bc + 8), bc + 16) := by
  have h1 : bc < 10 := by omega
  have h8 : bc + 8 < 10 := by omega
  cases t with
  | nil =>
    simp only [fill10, if_pos h1, if_pos h8]
  | cons d t' =>
    have h16 : ¬ (bc + 8 + 8 < 10) := by omega
    simp only [fill10, if_pos h1, if_pos h8, if_neg h16]

/-- Master lemma for the 10-bit unpacker: starting from pending bits
`bb` (< 2^bc, bc ≤ 7), it emits exactly as many whole 10-bit samples as the
available bits allow (capped at the requested pixel count), and the samples
are the base-1024 digits of the pending-bits-plus-byte-stream value. -/
theorem unpack10Go_digits : ∀ (n : Nat) (src : List Nat) (bb bc : Nat),
    (∀ x ∈ src, x < 256) → bb < 2 ^ bc → bc ≤ 7 →
    unpack10Go src bb bc n
      = digits1024 (min n ((src.length * 8 + bc) / 10))
          (bb + 2 ^ bc * byteVal src) := by
  intro n
  induction n with
  | zero =>
    intro src bb bc _ _ _
    simp [unpack10Go, digits1024, Nat.zero_min]
  | succ n ih =>
    intro src bb bc hbytes hbb hbc
    cases src with
    | nil =>
      have h0 : (List.length ([] : List Nat) * 8 + bc) / 10 = 0 := by
        simp
        omega
      rw [h0]
      simp [unpack10Go, digits1024, Nat.min_zero]
    | cons b rest =>
      by_cases h2 : 2 ≤ bc
      · have hf := fill10_ge2 b rest bb bc h2 (by omega)
        simp only [unpack10Go]
        rw [hf]
        show (if 10 ≤ bc + 8 then
                (bb + b * 2 ^ bc) % 1024
                  :: unpack10Go rest ((bb + b * 2 ^ bc) / 1024) (bc + 8 - 10) n
              else []) = _
        rw [if_pos (by omega : (10 : Nat) ≤ bc + 8)]
        have harith : min (n + 1) (((b :: rest).length * 8 + bc) / 10)
            = min n ((rest.length * 8 + (bc - 2)) / 10) + 1 := by
          simp only [List.length_cons]
          omega
        rw [harith]
        show _ = (bb + 2 ^ bc * byteVal (b :: rest)) % 1024
            :: digits1024 (min n ((rest.length * 8 + (bc - 2)) / 10))
                ((bb + 2 ^ bc * byteVal (b :: rest)) / 1024)
        have hexp : bb + 2 ^ bc * byteVal (b :: rest)
            = (bb + b * 2 ^ bc) + 1024 * (2 ^ (bc - 2) * byteVal rest) := by
          show bb + 2 ^ bc * (b + 256 * byteVal rest) = _
          have hp : (2 : Nat) ^ bc = 4 * 2 ^ (bc - 2) := by
            have h : (2 : Nat) ^ bc = 2 ^ (bc - 2 + 2) := by congr 1; omega
            rw [h, pow_add]
            ring
          rw [hp]
          ring
        have hhead : (bb + 2 ^ bc * byteVal (b :: rest)) % 1024
            = (bb + b * 2 ^ bc) % 1024 := by
          rw [hexp, Nat.add_mul_mod_self_left]
        have htail : (bb + 2 ^ bc * byteVal (b :: rest)) / 1024
            = (bb + b * 2 ^ bc) / 1024 + 2 ^ (bc - 2) * byteVal rest := by
          rw [hexp, Nat.add_mul_div_left _ _ (by norm_num : (0 : Nat) < 1024)]
        have hbb1 : bb + b * 2 ^ bc < 2 ^ (bc + 8) := by
          have hblt : b < 256 := hbytes b (by simp)
          have hx1 : bb + b * 2 ^ bc < (1 + b) * 2 ^ bc := by nlinarith
          have hx2 : (1 + b) * 2 ^ bc ≤ 256 * 2 ^ bc :=
            Nat.mul_le_mul_right _ (by omega)
          have hx3 : (2 : Nat) ^ (bc + 8) = 256 * 2 ^ bc := by
            rw [pow_add]; ring
          omega
        have hdivlt : (bb + b * 2 ^ bc) / 1024 < 2 ^ (bc - 2) := by
          apply Nat.div_lt_of_lt_mul
          have hx : (2 : Nat) ^ (bc + 8) = 1024 * 2 ^ (bc - 2) := by
            have h : (2 : Nat) ^ (bc + 8) = 2 ^ (bc - 2 + 10) := by congr 1; omega
            rw [h, pow_add]
            ring
          rw [← hx]
          exact hbb1
        rw [hhead, htail]
        have hsub : bc + 8 - 10 = bc - 2 := by omega
        rw [hsub]
        congr 1
        exact ih rest _ _ (fun x hx => hbytes x (by simp [hx])) hdivlt (by omega)
      · cases rest with
        | nil =>
          have hf := fill10_lt2_one b bb bc (by omega)
          simp only [unpack10Go]
          rw [hf]
          show (if 10 ≤ bc + 8 then
                  (bb + b * 2 ^ bc) % 1024
                    :: unpack10Go [] ((bb + b * 2 ^ bc) / 1024) (bc + 8 - 10) n
                else []) = _
          rw [if_neg (by omega : ¬ (10 : Nat) ≤ bc + 8)]
          have h0 : ((b :: ([] : List Nat)).length * 8 + bc) / 10 = 0 := by
            simp
            omega
          rw [h0]
          simp [digits1024, Nat.min_zero]
        | cons c t =>
          have hf := fill10_lt2_two b c t bb bc (by omega)
          simp only [unpack10Go]
          rw [hf]
          show (if 10 ≤ bc + 16 then
                  (bb + b * 2 ^ bc + c * 2 ^ (bc + 8)) % 1024
                    :: unpack10Go t ((bb + b * 2 ^ bc + c * 2 ^ (bc + 8)) / 1024)
                        (bc + 16 - 10) n
                else []) = _
          rw [if_pos (by omega : (10 : Nat) ≤ bc + 16)]
          have harith : min (n + 1) (((b :: c :: t).length * 8 + bc) / 10)
              = min n ((t.length * 8 + (bc + 6)) / 10) + 1 := by
            simp only [List.length_cons]
            omega
          rw [harith]
          show _ = (bb + 2 ^ bc * byteVal (b :: c :: t)) % 1024
              :: digits1024 (min n ((t.length * 8 + (bc + 6)) / 10))
                  ((bb + 2 ^ bc * byteVal (b :: c :: t)) / 1024)
          have hexp : bb + 2 ^ bc * byteVal (b :: c :: t)
              = (bb + b * 2 ^ bc + c * 2 ^ (bc + 8))
                + 1024 * (2 ^ (bc + 6) * byteVal t) := by
            show bb + 2 ^ bc * (b + 256 * (c + 256 * byteVal t)) = _
            have hp8 : (2 : Nat) ^ (bc + 8) = 2 ^ bc * 256 := by
              rw [pow_add]; norm_num
            have hp6 : (2 : Nat) ^ (bc + 6) = 2 ^ bc * 64 := by
              rw [pow_add]; norm_num
            rw [hp8, hp6]
            ring
          have hhead : (bb + 2 ^ bc * byteVal (b :: c :: t)) % 1024
              = (bb + b * 2 ^ bc + c * 2 ^ (bc + 8)) % 1024 := by
            rw [hexp, Nat.add_mul_mod_self_left]
          have htail : (bb + 2 ^ bc * byteVal (b :: c :: t)) / 1024
              = (bb + b * 2 ^ bc + c * 2 ^ (bc + 8)) / 1024
                + 2 ^ (bc + 6) * byteVal t := by
            rw [hexp, Nat.add_mul_div_left _ _ (by norm_num : (0 : Nat) < 1024)]
          have hbb2 : bb + b * 2 ^ bc + c * 2 ^ (bc + 8) < 2 ^ (bc + 16) := by
            have hblt : b < 256 := hbytes b (by simp)
            have hclt : c < 256 := hbytes c (by simp)
            have hp8 : (2 : Nat) ^ (bc + 8) = 256 * 2 ^ bc := by
              rw [pow_add]; ring
            have hp16 : (2 : Nat) ^ (bc + 16) = 256 * 2 ^ (bc + 8) := by
              rw [show bc + 16 = bc + 8 + 8 by omega, pow_add, pow_add]
              ring
            have hx1 : bb + b * 2 ^ bc < 256 * 2 ^ bc := by nlinarith
            have hx2 : c * 2 ^ (bc + 8) ≤ 255 * 2 ^ (bc + 8) :=
              Nat.mul_le_mul_right _ (by omega)
            omega
          have hdivlt : (bb + b * 2 ^ bc + c * 2 ^ (bc + 8)) / 1024
              < 2 ^ (bc + 6) := by
            apply Nat.div_lt_of_lt_mul
            have hx : (2 : Nat) ^ (bc + 16) = 1024 * 2 ^ (bc + 6) := by
              rw [show bc + 16 = bc + 6 + 10 by omega, pow_add, pow_add]
              ring
            rw [← hx]
            exact hbb2
          rw [hhead, htail]
          have hsub : bc + 16 - 10 = bc + 6 := by omega
          rw [hsub]
          congr 1
          exact ih t _ _ (fun x hx => hbytes x (by simp [hx])) hdivlt (by omega)

/-- digits1024 produces exactly as many entries as requested. -/
theorem digits1024_length : ∀ (k v : Nat), (digits1024 k v).length = k := by
  intro k
  induction k with
  | zero => intro v; rfl
  | succ k ih => intro v; simp [digits1024, ih]

/-- Every digit is below 1024. -/
theorem digits1024_mem_lt : ∀ (k v : Nat), ∀ x ∈ digits1024 k v, x < 1024 := by
  intro k
  induction k with
  | zero => intro v x hx; simp [digits1024] at hx
  | succ k ih =>
    intro v x hx
    rcases List.mem_cons.mp hx with hx | hx
    · subst hx; exact Nat.mod_lt _ (by norm_num)
    · exact ih _ x hx

/-- Taking back the base-1024 digits of a bounded sample list returns it. -/
theorem digits1024_sampleVal : ∀ (xs : List Nat), (∀ v ∈ xs, v < 1024) →
    digits1024 xs.length (sampleVal10 xs) = xs := by
  intro xs
  induction xs with
  | nil => intro _; rfl
  | cons s t ih =>
    intro hb
    have hs : s < 1024 := hb s (by simp)
    show (s % 1024 + 1024 * sampleVal10 t) % 1024
        :: digits1024 t.length ((s % 1024 + 1024 * sampleVal10 t) / 1024) = s :: t
    rw [Nat.add_mul_mod_self_left, Nat.add_mul_div_left _ _
      (by norm_num : (0 : Nat) < 1024)]
    rw [Nat.mod_mod_of_dvd _ dvd_rfl]
    have h1 : s % 1024 = s := Nat.mod_eq_of_lt hs
    have h2 : s % 1024 / 1024 = 0 := Nat.div_eq_of_lt (Nat.mod_lt _ (by norm_num))
    rw [h1]
    rw [show s / 1024 = 0 from Nat.div_eq_of_lt hs]
    rw [Nat.zero_add]
    rw [ih (fun v hv => hb v (by simp [hv]))]

/-- Length of the 12-bit pack loop output. -/
theorem pack12Go_length : ∀ (xs : List Nat),
    (pack12Go xs).length = (xs.length * 3 + 1) / 2 := by
  refine twoStepInduction ?_ ?_ ?_
  · rfl
  · intro a
    simp [pack12Go]
  · intro a b t ih
    show (pack12Go t).length + 3 = ((t.length + 2) * 3 + 1) / 2
    rw [ih]
    omega

/-- `packFrame12Bit` needs no padding either. -/
theorem packFrame12Bit_eq_go (xs : List Nat) :
    packFrame12Bit xs = pack12Go xs := by
  show pack12Go xs
      ++ List.replicate ((xs.length * 3 + 1) / 2 - (pack12Go xs).length) 0
    = pack12Go xs
  rw [pack12Go_length]
  simp

/-- The 12-bit unpacker inverts the 12-bit pack loop. -/
theorem unpack12Go_pack12Go : ∀ (ys : List Nat), (∀ v ∈ ys, v < 4096) →
    unpack12Go ys.length (pack12Go ys) = ys := by
  refine twoStepInduction ?_ ?_ ?_
  · intro _; rfl
  · intro a ha
    have ha4 : a < 4096 := ha a (by simp)
    show [a % 4096 / 16 % 256 * 16 + a % 4096 % 16 * 16 / 16 % 16] = [a]
    have e : a % 4096 / 16 % 256 * 16 + a % 4096 % 16 * 16 / 16 % 16 = a := by
      omega
    rw [e]
  · intro a b t ih hbound
    have ha : a < 4096 := hbound a (by simp)
    have hb : b < 4096 := hbound b (by simp)
    show (a % 4096 / 16 % 256 * 16
          + (a % 4096 % 16 * 16 + b % 4096 / 256 % 16) / 16 % 16)
        :: ((a % 4096 % 16 * 16 + b % 4096 / 256 % 16) % 16 * 256 + b % 4096 % 256)
        :: unpack12Go t.length (pack12Go t) = a :: b :: t
    rw [ih (fun v hv => hbound v (by simp [hv]))]
    have e1 : a % 4096 / 16 % 256 * 16
        + (a % 4096 % 16 * 16 + b % 4096 / 256 % 16) / 16 % 16 = a := by
      omega
    have e2 : (a % 4096 % 16 * 16 + b % 4096 / 256 % 16) % 16 * 256
        + b % 4096 % 256 = b := by
      omega
    rw [e1, e2]

/-- The 12-bit unpacker decodes `min pixelCount (2 * srcBytes / 3)` samples:
two per whole 3-byte group, one more from a trailing 2-byte pair. -/
theorem unpack12Go_length : ∀ (n : Nat) (src : List Nat),
    (unpack12Go n src).length = min n (2 * src.length / 3) := by
  intro n
  induction n using Nat.strong_induction_on with
  | _ n ih =>
    intro src
    match n, src with
    | 0, src => simp [unpack12Go]
    | m + 1, [] =>
      rw [show unpack12Go (m + 1) ([] : List Nat) = [] from rfl]
      simp
    | m + 1, [b0] =>
      rw [show unpack12Go (m + 1) [b0] = [] from rfl]
      simp
    | m + 1, [b0, b1] =>
      rw [show unpack12Go (m + 1) [b0, b1] = [b0 * 16 + b1 / 16 % 16] from rfl]
      simp
    | 1, b0 :: b1 :: b2 :: rest =>
      rw [show unpack12Go 1 (b0 :: b1 :: b2 :: rest)
          = [b0 * 16 + b1 / 16 % 16] from rfl]
      show 1 = min 1 (2 * (rest.length + 3) / 3)
      omega
    | k + 2, b0 :: b1 :: b2 :: rest =>
      rw [show unpack12Go (k + 2) (b0 :: b1 :: b2 :: rest)
          = (b0 * 16 + b1 / 16 % 16) :: (b1 % 16 * 256 + b2)
            :: unpack12Go k rest from rfl]
      show (unpack12Go k rest).length + 2 = min (k + 2) (2 * (rest.length + 3) / 3)
      rw [ih k (by omega) rest]
      omega

/-- Every sample the 12-bit unpacker emits from byte input is below 4096. -/
theorem unpack12Go_mem_lt : ∀ (n : Nat) (src : List Nat),
    (∀ b ∈ src, b < 256) → ∀ x ∈ unpack12Go n src, x < 4096 := by
  intro n
  induction n using Nat.strong_induction_on with
  | _ n ih =>
    intro src hb
    match n, src with
    | 0, src => intro x hx; simp [unpack12Go] at hx
    | m + 1, [] => intro x hx; simp [show unpack12Go (m + 1) ([] : List Nat) = [] from rfl] at hx
    | m + 1, [b0] => intro x hx; simp [show unpack12Go (m + 1) [b0] = [] from rfl] at hx
    | m + 1, [b0, b1] =>
      intro x hx
      rw [show unpack12Go (m + 1) [b0, b1] = [b0 * 16 + b1 / 16 % 16] from rfl] at hx
      have h0 : b0 < 256 := hb b0 (by simp)
      simp at hx
      omega
    | 1, b0 :: b1 :: b2 :: rest =>
      intro x hx
      rw [show unpack12Go 1 (b0 :: b1 :: b2 :: rest)
          = [b0 * 16 + b1 / 16 % 16] from rfl] at hx
      have h0 : b0 < 256 := hb b0 (by simp)
      simp at hx
      omega
    | k + 2, b0 :: b1 :: b2 :: rest =>
      intro x hx
      rw [show unpack12Go (k + 2) (b0 :: b1 :: b2 :: rest)
          = (b0 * 16 + b1 / 16 % 16) :: (b1 % 16 * 256 + b2)
            :: unpack12Go k rest from rfl] at hx
      have h0 : b0 < 256 := hb b0 (by simp)
      have h2 : b2 < 256 := hb b2 (by simp)
      rcases List.mem_cons.mp hx with hx | hx
      · omega
      rcases List.mem_cons.mp hx with hx | hx
      · omega
      · exact ih k (by omega) rest (fun y hy => hb y (by simp [hy])) x hx

/-- Byte positions of an aligned sample pair in the 12-bit pack output. -/
theorem pack12Go_getD_pair : ∀ (k : Nat) (xs : List Nat), 2 * k + 1 < xs.length →
    (∀ v ∈ xs, v < 4096) →
    (pack12Go xs).getD (3 * k) 0 = xs.getD (2 * k) 0 / 16 ∧
    (pack12Go xs).getD (3 * k + 1) 0
      = xs.getD (2 * k) 0 % 16 * 16 + xs.getD (2 * k + 1) 0 / 256 ∧
    (pack12Go xs).getD (3 * k + 2) 0 = xs.getD (2 * k + 1) 0 % 256 := by
  intro k
  induction k with
  | zero =>
    intro xs h hb
    cases xs with
    | nil => simp at h
    | cons a t =>
      cases t with
      | nil => simp at h
      | cons b t' =>
        have ha : a < 4096 := hb a (by simp)
        have hbb : b < 4096 := hb b (by simp)
        refine ⟨?_, ?_, ?_⟩
        · show a % 4096 / 16 % 256 = a / 16
          omega
        · show a % 4096 % 16 * 16 + b % 4096 / 256 % 16 = a % 16 * 16 + b / 256
          omega
        · show b % 4096 % 256 = b % 256
          omega
  | succ k ih =>
    intro xs h hb
    cases xs with
    | nil => simp at h
    | cons a t =>
      cases t with
      | nil => simp at h
      | cons b t' =>
        have h' : 2 * k + 1 < t'.length := by
          simp only [List.length_cons] at h
          omega
        have step := ih t' h' (fun v hv => hb v (by simp [hv]))
        exact ⟨step.1, step.2.1, step.2.2⟩

/-- Byte positions of the odd trailing sample in the 12-bit pack output. -/
theorem pack12Go_getD_odd : ∀ (k : Nat) (xs : List Nat), 2 * k + 1 = xs.length →
    (∀ v ∈ xs, v < 4096) →
    (pack12Go xs).getD (3 * k) 0 = xs.getD (2 * k) 0 / 16 ∧
    (pack12Go xs).getD (3 * k + 1) 0 = xs.getD (2 * k) 0 % 16 * 16 ∧
    (pack12Go xs).getD (3 * k + 1) 0 % 16 = 0 := by
  intro k
  induction k with
  | zero =>
    intro xs h hb
    cases xs with
    | nil => simp at h
    | cons a t =>
      cases t with
      | nil =>
        have ha : a < 4096 := hb a (by simp)
        refine ⟨?_, ?_, ?_⟩
        · show a % 4096 / 16 % 256 = a / 16
          omega
        · show a % 4096 % 16 * 16 = a % 16 * 16
          omega
        · show a % 4096 % 16 * 16 % 16 = 0
          omega
      | cons b t' =>
        simp only [List.length_cons] at h
        omega
  | succ k ih =>
    intro xs h hb
    cases xs with
    | nil => simp at h
    | cons a t =>
      cases t with
      | nil =>
        simp only [List.length_cons, List.length_nil] at h
        omega
      | cons b t' =>
        have h' : 2 * k + 1 = t'.length := by
          simp only [List.length_cons] at h
          omega
        have step := ih t' h' (fun v hv => hb v (by simp [hv]))
        exact ⟨step.1, step.2.1, step.2.2⟩

/-! ### C1: pack-then-unpack round trip -/

/-- C1: for any array of samples within the bit depth (10 or 12 bits) of any
length at least 1 — odd lengths and lengths not divisible by 4 or 8
included — unpacking the packed buffer with the original pixel count and the
exact packed byte count reproduces the samples exactly. -/
theorem C1_pack_unpack_roundtrip (xs ys : List Nat)
    (hx : ∀ v ∈ xs, v < 1024) (hy : ∀ v ∈ ys, v < 4096)
    (hxn : 1 ≤ xs.length) (hyn : 1 ≤ ys.length) :
    unpackFrame10Bit (packFrame10Bit xs) xs.length = xs ∧
    unpackFrame12Bit (packFrame12Bit ys) ys.length = ys := by
  constructor
  · have hval := (pack10Go_spec xs 0 0 (by norm_num) (by norm_num)).1
    have hlen := (pack10Go_spec xs 0 0 (by norm_num) (by norm_num)).2
    have hbytes := pack10Go_bytes xs 0 0 (by norm_num) (by norm_num)
    rw [packFrame10Bit_eq_go]
    show unpack10Go (pack10Go xs 0 0) 0 0 xs.length
        ++ List.replicate
            (xs.length - (unpack10Go (pack10Go xs 0 0) 0 0 xs.length).length) 0
      = xs
    rw [unpack10Go_digits xs.length (pack10Go xs 0 0) 0 0 hbytes
      (by norm_num) (by norm_num)]
    have hmin : min xs.length (((pack10Go xs 0 0).length * 8 + 0) / 10)
        = xs.length := by
      rw [hlen]
      omega
    rw [hmin]
    have hv : 0 + 2 ^ 0 * byteVal (pack10Go xs 0 0) = sampleVal10 xs := by
      rw [hval]
      simp
    rw [hv, digits1024_sampleVal xs hx]
    simp
  · rw [packFrame12Bit_eq_go]
    show unpack12Go ys.length (pack12Go ys)
        ++ List.replicate
            (ys.length - (unpack12Go ys.length (pack12Go ys)).length) 0
      = ys
    rw [unpack12Go_pack12Go ys hy]
    simp

/-- C1 witness: five 10-bit samples and three 12-bit samples, both with odd
lengths not aligned to 4 or 8. -/
theorem C1_pack_unpack_roundtrip_witness :
    unpackFrame10Bit (packFrame10Bit [1023, 0, 513, 7, 999])
        [1023, 0, 513, 7, 999].length = [1023, 0, 513, 7, 999] ∧
    unpackFrame12Bit (packFrame12Bit [4095, 0, 2049])
        [4095, 0, 2049].length = [4095, 0, 2049] :=
  C1_pack_unpack_roundtrip [1023, 0, 513, 7, 999] [4095, 0, 2049]
    (by decide) (by decide) (by decide) (by decide)

/-! ### C5: 12-bit pack layout -/

/-- C5: `packFrame12Bit` emits exactly `ceil(N * 3 / 2)` bytes; an aligned
pair (A, B) occupies three bytes — high 8 bits of A, then low nibble of A
shifted high ORed with the high nibble of B, then the low byte of B — and an
odd trailing sample occupies two bytes with a zero low nibble in the
second. -/
theorem C5_pack12_layout (xs : List Nat) (hx : ∀ v ∈ xs, v < 4096) :
    (packFrame12Bit xs).length = (xs.length * 3 + 1) / 2 ∧
    (∀ k, 2 * k + 1 < xs.length →
      (packFrame12Bit xs).getD (3 * k) 0 = xs.getD (2 * k) 0 / 16 ∧
      (packFrame12Bit xs).getD (3 * k + 1) 0
        = xs.getD (2 * k) 0 % 16 * 16 + xs.getD (2 * k + 1) 0 / 256 ∧
      (packFrame12Bit xs).getD (3 * k + 2) 0 = xs.getD (2 * k + 1) 0 % 256) ∧
    (∀ k, 2 * k + 1 = xs.length →
      (packFrame12Bit xs).getD (3 * k) 0 = xs.getD (2 * k) 0 / 16 ∧
      (packFrame12Bit xs).getD (3 * k + 1) 0 = xs.getD (2 * k) 0 % 16 * 16 ∧
      (packFrame12Bit xs).getD (3 * k + 1) 0 % 16 = 0) := by
  refine ⟨?_, ?_, ?_⟩
  · rw [packFrame12Bit_eq_go, pack12Go_length]
  · intro k hk
    rw [packFrame12Bit_eq_go]
    exact pack12Go_getD_pair k xs hk hx
  · intro k hk
    rw [packFrame12Bit_eq_go]
    exact pack12Go_getD_odd k xs hk hx

/-- C5 witness: the three-sample array 0xABC, 0xDEF, 0x123. -/
theorem C5_pack12_layout_witness :
    (packFrame12Bit [2748, 3567, 291]).length = ([2748, 3567, 291].length * 3 + 1) / 2 ∧
    (∀ k, 2 * k + 1 < [2748, 3567, 291].length →
      (packFrame12Bit [2748, 3567, 291]).getD (3 * k) 0
        = [2748, 3567, 291].getD (2 * k) 0 / 16 ∧
      (packFrame12Bit [2748, 3567, 291]).getD (3 * k + 1) 0
        = [2748, 3567, 291].getD (2 * k) 0 % 16 * 16
          + [2748, 3567, 291].getD (2 * k + 1) 0 / 256 ∧
      (packFrame12Bit [2748, 3567, 291]).getD (3 * k + 2) 0
        = [2748, 3567, 291].getD (2 * k + 1) 0 % 256) ∧
    (∀ k, 2 * k + 1 = [2748, 3567, 291].length →
      (packFrame12Bit [2748, 3567, 291]).getD (3 * k) 0
        = [2748, 3567, 291].getD (2 * k) 0 / 16 ∧
      (packFrame12Bit [2748, 3567, 291]).getD (3 * k + 1) 0
        = [2748, 3567, 291].getD (2 * k) 0 % 16 * 16 ∧
      (packFrame12Bit [2748, 3567, 291]).getD (3 * k + 1) 0 % 16 = 0) :=
  C5_pack12_layout [2748, 3567, 291] (by decide)

/-! ### C9: unpacker safety on arbitrary (including truncated) input -/

/-- C9: on any byte buffer and pixel count, both unpackers produce exactly
`pixelCount` 16-bit samples: a decoded prefix of
`min pixelCount (availableWholeSamples)` values followed by zeros, every
value below 2^16.  The source is consumed as a list, so no access beyond
`srcBytes` exists by construction. -/
theorem C9_unpack_bounded (src : List Nat) (n : Nat) (hb : ∀ b ∈ src, b < 256) :
    ((unpackFrame10Bit src n).length = n ∧
     unpackFrame10Bit src n
       = unpack10Go src 0 0 n
          ++ List.replicate (n - (unpack10Go src 0 0 n).length) 0 ∧
     (unpack10Go src 0 0 n).length = min n (src.length * 8 / 10) ∧
     (∀ x ∈ unpackFrame10Bit src n, x < 65536)) ∧
    ((unpackFrame12Bit src n).length = n ∧
     unpackFrame12Bit src n
       = unpack12Go n src ++ List.replicate (n - (unpack12Go n src).length) 0 ∧
     (unpack12Go n src).length = min n (2 * src.length / 3) ∧
     (∀ x ∈ unpackFrame12Bit src n, x < 65536)) := by
  have hlen10 : (unpack10Go src 0 0 n).length = min n (src.length * 8 / 10) := by
    rw [unpack10Go_digits n src 0 0 hb (by norm_num) (by norm_num),
      digits1024_length]
    omega
  have hmem10 : ∀ x ∈ unpack10Go src 0 0 n, x < 1024 := by
    rw [unpack10Go_digits n src 0 0 hb (by norm_num) (by norm_num)]
    exact digits1024_mem_lt _ _
  have hlen12 := unpack12Go_length n src
  have hmem12 := unpack12Go_mem_lt n src hb
  refine ⟨⟨?_, rfl, hlen10, ?_⟩, ⟨?_, rfl, hlen12, ?_⟩⟩
  · show ((unpack10Go src 0 0 n)
        ++ List.replicate (n - (unpack10Go src 0 0 n).length) 0).length = n
    rw [List.length_append, List.length_replicate]
    omega
  · intro x hx
    rcases List.mem_append.mp hx with hx | hx
    · have := hmem10 x hx
      omega
    · have := List.eq_of_mem_replicate hx
      omega
  · show ((unpack12Go n src)
        ++ List.replicate (n - (unpack12Go n src).length) 0).length = n
    rw [List.length_append, List.length_replicate]
    omega
  · intro x hx
    rcases List.mem_append.mp hx with hx | hx
    · have := hmem12 x hx
      omega
    · have := List.eq_of_mem_replicate hx
      omega

/-- C9 witness: a 3-byte buffer asked for 4 pixels. -/
theorem C9_unpack_bounded_witness :
    (((unpackFrame10Bit [255, 200, 7] 4).length = 4 ∧
     unpackFrame10Bit [255, 200, 7] 4
       = unpack10Go [255, 200, 7] 0 0 4
          ++ List.replicate (4 - (unpack10Go [255, 200, 7] 0 0 4).length) 0 ∧
     (unpack10Go [255, 200, 7] 0 0 4).length
       = min 4 ([255, 200, 7].length * 8 / 10) ∧
     (∀ x ∈ unpackFrame10Bit [255, 200, 7] 4, x < 65536)) ∧
    ((unpackFrame12Bit [255, 200, 7] 4).length = 4 ∧
     unpackFrame12Bit [255, 200, 7] 4
       = unpack12Go 4 [255, 200, 7]
          ++ List.replicate (4 - (unpack12Go 4 [255, 200, 7]).length) 0 ∧
     (unpack12Go 4 [255, 200, 7]).length = min 4 (2 * [255, 200, 7].length / 3) ∧
     (∀ x ∈ unpackFrame12Bit [255, 200, 7] 4, x < 65536))) :=
  C9_unpack_bounded [255, 200, 7] 4 (by decide)

/-! ### C10: init rejections leave the writer untouched -/

/-- C10: `VrawWriter::init` returns false without reaching `fopen` (so no
output file is created or opened) and leaves the writer state unchanged
whenever the width is 0, the height is 0, the output path is empty, or a
previous init left an output file open. -/
theorem C10_init_rejects_without_state_change (s : WriterSM) (width height : Nat)
    (pathEmpty usePacking useCompression fopenOk : Bool)
    (h : s.fileOpen = true ∨ width = 0 ∨ height = 0 ∨ pathEmpty = true) :
    VrawWriter.init s width height pathEmpty usePacking useCompression fopenOk
      = (false, s, false) := by
  unfold VrawWriter.init
  rcases h with h | h | h | h
  · simp [h]
  all_goals cases hf : s.fileOpen <;> simp [hf, h]

/-- C10 witness: a writer with an open file rejects a fresh init unchanged. -/
theorem C10_init_rejects_witness :
    VrawWriter.init ⟨true, false, 3, 4, false, false, 0, 512, []⟩ 5 6 false true true true
      = (false, ⟨true, false, 3, 4, false, false, 0, 512, []⟩, false) :=
  C10_init_rejects_without_state_change _ 5 6 false true true true (Or.inl rfl)

/-! ### C4: writer state machine -/

/-- C4 counterexample: after `init`, `start`, `stop` — the state the claim
calls Finalized — a second call to `start` succeeds, re-entering Recording.
The code keeps the output file open and only clears `isRecording_`, so the
`start` guard `(!outputFile_ || isRecording_)` does not fire.  This refutes
the claim that a subsequent `start` on the same writer instance fails. -/
theorem C4_counterexample_start_after_stop :
    (VrawWriter.start
        ((VrawWriter.init ⟨false, false, 0, 0, false, false, 0, 0, []⟩
            2 2 false false false true).2.1)).1 = true ∧
    (VrawWriter.stop
        (VrawWriter.start
          ((VrawWriter.init ⟨false, false, 0, 0, false, false, 0, 0, []⟩
              2 2 false false false true).2.1)).2).1 = true ∧
    (VrawWriter.start
        (VrawWriter.stop
          (VrawWriter.start
            ((VrawWriter.init ⟨false, false, 0, 0, false, false, 0, 0, []⟩
                2 2 false false false true).2.1)).2).2).1 = true := by
  decide

/-- C4 (amended): `submitFrame` succeeds only while recording with an open
file and is rejected with no state change otherwise; but `stop` only clears
the recording flag, leaving the file open, so after a successful `stop` a
further `start` succeeds and the writer re-enters Recording — there is no
Finalized lockout. -/
theorem C4_submit_only_recording_and_restart (s : WriterSM) (dataValid : Bool)
    (payloadBytes : Nat) :
    (s.recording = false ∨ s.fileOpen = false ∨ dataValid = false →
        VrawWriter.submitFrame s dataValid payloadBytes = (false, s)) ∧
    ((VrawWriter.submitFrame s dataValid payloadBytes).1 = true →
        s.recording = true ∧ s.fileOpen = true) ∧
    ((VrawWriter.stop s).1 = true →
        (VrawWriter.start (VrawWriter.stop s).2).1 = true) := by
  refine ⟨fun h => ?_, fun h => ?_, fun h => ?_⟩
  · unfold VrawWriter.submitFrame
    simp [h]
  · unfold VrawWriter.submitFrame at h
    by_cases hc : s.recording = false ∨ s.fileOpen = false ∨ dataValid = false
    · rw [if_pos hc] at h
      exact Bool.noConfusion h
    · push_neg at hc
      obtain ⟨h1, h2, _⟩ := hc
      refine ⟨?_, ?_⟩
      · cases hr : s.recording
        · exact absurd hr h1
        · rfl
      · cases ho : s.fileOpen
        · exact absurd ho h2
        · rfl
  · unfold VrawWriter.stop at h ⊢
    by_cases hc : s.fileOpen = false ∨ s.recording = false
    · rw [if_pos hc] at h
      exact Bool.noConfusion h
    · rw [if_neg hc]
      have ho : s.fileOpen = true := by
        cases ho : s.fileOpen
        · exact absurd (Or.inl ho) hc
        · rfl
      unfold VrawWriter.start
      simp [ho]

/-- C4 witness: a recording writer with a closed-file flag rejects a frame. -/
theorem C4_submit_only_recording_witness :
    VrawWriter.submitFrame ⟨true, false, 2, 2, false, false, 0, 512, []⟩ true 8
      = (false, ⟨true, false, 2, 2, false, false, 0, 512, []⟩) :=
  (C4_submit_only_recording_and_restart ⟨true, false, 2, 2, false, false, 0, 512, []⟩
      true 8).1 (Or.inl rfl)

/-! ### C3: compressed-size field -/

/-- C3 counterexample: one 12-bit pixel, packing enabled, global compression
disabled.  The payload written is the packed (uncompressed) buffer, yet the
frame header records `compressed_size = payloadBytes = 2`, not 0 — the
`fh.compressed_size = writePacked_ ? payloadBytes : 0` branch.  This refutes
the claim that an uncompressed payload always records compressed-size 0. -/
theorem C3_counterexample_packed_uncompressed :
    (submitFrameData false true true [0] (fun b => b)).1 = 2 ∧
    (submitFrameData false true true [0] (fun b => b)).2.2 = packFrame12Bit [0] ∧
    packFrame12Bit [0] = [0, 0] := by
  decide

/-- C3 (amended): with compression enabled, the compressed-size field is
nonzero iff the compressor output was accepted (nonempty and strictly
smaller than the payload), in which case the stored payload is the
compressor output and the field is its exact size; a rejected compression
stores the payload uncompressed with field 0.  With compression disabled
the payload is always stored uncompressed, and the field records the packed
payload size when packing is enabled — equal to the uncompressed size, not
0 — and 0 only when packing is disabled. -/
theorem C3_compressed_size_field (useCompression writePacked is12Bit : Bool)
    (data : List Nat) (compress : List Nat → List Nat) :
    (submitFrameData useCompression writePacked is12Bit data compress).2.1
        = (packedPayload writePacked is12Bit data).length ∧
    (useCompression = true →
      (((submitFrameData useCompression writePacked is12Bit data compress).1 ≠ 0 ↔
          0 < (compress (packedPayload writePacked is12Bit data)).length ∧
            (compress (packedPayload writePacked is12Bit data)).length
              < (packedPayload writePacked is12Bit data).length) ∧
       ((submitFrameData useCompression writePacked is12Bit data compress).1 ≠ 0 →
          (submitFrameData useCompression writePacked is12Bit data compress).2.2
              = compress (packedPayload writePacked is12Bit data) ∧
            (submitFrameData useCompression writePacked is12Bit data compress).1
              < (submitFrameData useCompression writePacked is12Bit data compress).2.1) ∧
       ((submitFrameData useCompression writePacked is12Bit data compress).1 = 0 →
          (submitFrameData useCompression writePacked is12Bit data compress).2.2
              = packedPayload writePacked is12Bit data))) ∧
    (useCompression = false →
      (submitFrameData useCompression writePacked is12Bit data compress).2.2
          = packedPayload writePacked is12Bit data ∧
        (submitFrameData useCompression writePacked is12Bit data compress).1
          = (if writePacked then (packedPayload writePacked is12Bit data).length else 0)) := by
  cases useCompression
  · exact ⟨rfl, fun h => Bool.noConfusion h, fun _ => ⟨rfl, rfl⟩⟩
  · by_cases hc : 0 < (compress (packedPayload writePacked is12Bit data)).length ∧
        (compress (packedPayload writePacked is12Bit data)).length
          < (packedPayload writePacked is12Bit data).length
    · have e : submitFrameData true writePacked is12Bit data compress
          = ((compress (packedPayload writePacked is12Bit data)).length,
             (packedPayload writePacked is12Bit data).length,
             compress (packedPayload writePacked is12Bit data)) := by
        show (if 0 < (compress (packedPayload writePacked is12Bit data)).length ∧
                  (compress (packedPayload writePacked is12Bit data)).length
                    < (packedPayload writePacked is12Bit data).length then
                ((compress (packedPayload writePacked is12Bit data)).length,
                 (packedPayload writePacked is12Bit data).length,
                 compress (packedPayload writePacked is12Bit data))
              else (0, (packedPayload writePacked is12Bit data).length,
                 packedPayload writePacked is12Bit data)) = _
        rw [if_pos hc]
      rw [e]
      exact ⟨rfl, fun _ => ⟨⟨fun _ => hc, fun _ => by omega⟩,
        fun _ => ⟨rfl, hc.2⟩, fun h0 => absurd h0 (by omega)⟩,
        fun h => Bool.noConfusion h⟩
    · have e : submitFrameData true writePacked is12Bit data compress
          = (0, (packedPayload writePacked is12Bit data).length,
             packedPayload writePacked is12Bit data) := by
        show (if 0 < (compress (packedPayload writePacked is12Bit data)).length ∧
                  (compress (packedPayload writePacked is12Bit data)).length
                    < (packedPayload writePacked is12Bit data).length then
                ((compress (packedPayload writePacked is12Bit data)).length,
                 (packedPayload writePacked is12Bit data).length,
                 compress (packedPayload writePacked is12Bit data))
              else (0, (packedPayload writePacked is12Bit data).length,
                 packedPayload writePacked is12Bit data)) = _
        rw [if_neg hc]
      rw [e]
      exact ⟨rfl, fun _ => ⟨by simp [hc], fun h0 => (h0 rfl).elim, fun _ => rfl⟩,
        fun h => Bool.noConfusion h⟩

/-- C3 witness: compression enabled, a compressor that shrinks two bytes to
one is accepted and its size recorded. -/
theorem C3_compressed_size_field_witness :
    (submitFrameData true true true [0] (fun _ => [7])).2.1
        = (packedPayload true true [0]).length ∧
    (true = true →
      (((submitFrameData true true true [0] (fun _ => [7])).1 ≠ 0 ↔
          0 < ((fun (_ : List Nat) => [7]) (packedPayload true true [0])).length ∧
            ((fun (_ : List Nat) => [7]) (packedPayload true true [0])).length
              < (packedPayload true true [0]).length) ∧
       ((submitFrameData true true true [0] (fun _ => [7])).1 ≠ 0 →
          (submitFrameData true true true [0] (fun _ => [7])).2.2
              = (fun (_ : List Nat) => [7]) (packedPayload true true [0]) ∧
            (submitFrameData true true true [0] (fun _ => [7])).1
              < (submitFrameData true true true [0] (fun _ => [7])).2.1) ∧
       ((submitFrameData true true true [0] (fun _ => [7])).1 = 0 →
          (submitFrameData true true true [0] (fun _ => [7])).2.2
              = packedPayload true true [0]))) ∧
    (true = false →
      (submitFrameData true true true [0] (fun _ => [7])).2.2
          = packedPayload true true [0] ∧
        (submitFrameData true true true [0] (fun _ => [7])).1
          = (if true then (packedPayload true true [0]).length else 0)) :=
  C3_compressed_size_field true true true [0] (fun _ => [7])

/-! ### C2: index recovery after truncation -/

/-- Reading a byte beyond an appended prefix reads from the suffix. -/
theorem getD_append_shift (pre l : List Nat) (j : Nat) :
    (pre ++ l).getD (pre.length + j) 0 = l.getD j 0 := by
  rw [List.getD_append_right _ _ _ _ (by omega)]
  congr 1
  omega

/-- A 32-bit read beyond an appended prefix reads from the suffix. -/
theorem readLE32_append_right (pre l : List Nat) (off : Nat) :
    readLE32 (pre ++ l) (pre.length + off) = readLE32 l off := by
  unfold readLE32
  rw [show pre.length + off + 1 = pre.length + (off + 1) by omega,
    show pre.length + off + 2 = pre.length + (off + 2) by omega,
    show pre.length + off + 3 = pre.length + (off + 3) by omega,
    getD_append_shift, getD_append_shift, getD_append_shift, getD_append_shift]

/-- A 64-bit read beyond an appended prefix reads from the suffix. -/
theorem readLE64_append_right (pre l : List Nat) (off : Nat) :
    readLE64 (pre ++ l) (pre.length + off) = readLE64 l off := by
  unfold readLE64
  rw [show pre.length + off + 4 = pre.length + (off + 4) by omega,
    readLE32_append_right, readLE32_append_right]

/-- A 32-bit read of freshly serialized 32-bit little-endian bytes. -/
theorem readLE32_le32 (v : Nat) (tail : List Nat) (hv : v < 4294967296) :
    readLE32 (le32 v ++ tail) 0 = v := by
  show v % 256 + 256 * (v / 256 % 256) + 65536 * (v / 65536 % 256)
      + 16777216 * (v / 16777216 % 256) = v
  omega

/-- A 64-bit read of freshly serialized 64-bit little-endian bytes. -/
theorem readLE64_le64 (v : Nat) (tail : List Nat) (hv : v < 18446744073709551616) :
    readLE64 (le64 v ++ tail) 0 = v := by
  show (v % 256 + 256 * (v / 256 % 256) + 65536 * (v / 65536 % 256)
        + 16777216 * (v / 16777216 % 256))
      + 4294967296 * (v / 4294967296 % 256 + 256 * (v / 1099511627776 % 256)
        + 65536 * (v / 281474976710656 % 256)
        + 16777216 * (v / 72057594037927936 % 256)) = v
  omega

/-- The frame header occupies exactly `FRAME_HEADER_SIZE = 64` bytes. -/
theorem frameHeaderBytes_length (f : FrameRec) (i : Nat) :
    (frameHeaderBytes f i).length = 64 := by
  simp [frameHeaderBytes, le64, le32]

/-- The compressed-size field sits at byte offset 12 of a frame header. -/
theorem readLE32_frame_csize (f : FrameRec) (i : Nat) (tail : List Nat)
    (h : f.csize < 4294967296) :
    readLE32 (frameHeaderBytes f i ++ tail) 12 = f.csize := by
  have hassoc : frameHeaderBytes f i ++ tail
      = (le64 f.timestamp ++ le32 i)
        ++ (le32 f.csize ++ (le32 f.usize ++ (List.replicate 44 0 ++ tail))) := by
    simp [frameHeaderBytes, List.append_assoc]
  rw [hassoc,
    show (12 : Nat) = (le64 f.timestamp ++ le32 i).length + 0 by simp [le64, le32],
    readLE32_append_right]
  exact readLE32_le32 _ _ h

/-- The uncompressed-size field sits at byte offset 16 of a frame header. -/
theorem readLE32_frame_usize (f : FrameRec) (i : Nat) (tail : List Nat)
    (h : f.usize < 4294967296) :
    readLE32 (frameHeaderBytes f i ++ tail) 16 = f.usize := by
  have hassoc : frameHeaderBytes f i ++ tail
      = (le64 f.timestamp ++ le32 i ++ le32 f.csize)
        ++ (le32 f.usize ++ (List.replicate 44 0 ++ tail)) := by
    simp [frameHeaderBytes, List.append_assoc]
  rw [hassoc,
    show (16 : Nat) = (le64 f.timestamp ++ le32 i ++ le32 f.csize).length + 0 by
      simp [le64, le32],
    readLE32_append_right]
  exact readLE32_le32 _ _ h

/-- The sequential scan over a well-formed frames section, starting at the
byte right after an arbitrary prefix with fuel for exactly the remaining
frames, indexes every frame at its true offset. -/
theorem buildSeqIdxAux_frames : ∀ (rest : List FrameRec) (pre : List Nat) (i : Nat),
    (∀ f ∈ rest, frameWF f) →
    buildSeqIdxAux (pre ++ framesBytes i rest) pre.length rest.length
      = frameOffsets pre.length rest := by
  intro rest
  induction rest with
  | nil => intro pre i _; rfl
  | cons f rest' ih =>
    intro pre i hwf
    obtain ⟨hpay, hpos, hc32, hu32⟩ := hwf f (by simp)
    simp only [framesBytes, List.length_cons, buildSeqIdxAux]
    rw [show frameHeaderBytes f i ++ f.payload ++ framesBytes (i + 1) rest'
        = frameHeaderBytes f i ++ (f.payload ++ framesBytes (i + 1) rest') from
      List.append_assoc _ _ _]
    have hlen : (pre ++ (frameHeaderBytes f i ++ (f.payload ++ framesBytes (i + 1) rest'))).length
        = pre.length + 64 + frameDataSize f + (framesBytes (i + 1) rest').length := by
      simp [frameHeaderBytes_length, hpay]
      omega
    rw [if_pos (by rw [hlen]; omega)]
    rw [readLE32_append_right pre _ 12, readLE32_append_right pre _ 16,
      readLE32_frame_csize f i _ hc32, readLE32_frame_usize f i _ hu32]
    have hds : (if 0 < f.csize then f.csize else f.usize) = frameDataSize f := rfl
    rw [hds]
    rw [if_neg (by omega : ¬ frameDataSize f = 0)]
    rw [if_neg (by rw [hlen]; omega)]
    have hpre' : (pre ++ (frameHeaderBytes f i ++ f.payload)).length
        = pre.length + 64 + frameDataSize f := by
      simp [frameHeaderBytes_length, hpay]
      omega
    have hrec := ih (pre ++ (frameHeaderBytes f i ++ f.payload)) (i + 1)
      (fun g hg => hwf g (by simp [hg]))
    rw [hpre'] at hrec
    rw [show pre ++ (frameHeaderBytes f i ++ f.payload) ++ framesBytes (i + 1) rest'
        = pre ++ (frameHeaderBytes f i ++ (f.payload ++ framesBytes (i + 1) rest')) by
      simp [List.append_assoc]] at hrec
    rw [hrec]
    rfl

/-- Every offset the writer records lies at or after its section start and
strictly inside the frames section. -/
theorem frameOffsets_bounds : ∀ (rest : List FrameRec) (pos i : Nat),
    (∀ f ∈ rest, frameWF f) →
    ∀ o ∈ frameOffsets pos rest, pos ≤ o ∧ o < pos + (framesBytes i rest).length := by
  intro rest
  induction rest with
  | nil => intro pos i _ o ho; simp [frameOffsets] at ho
  | cons f rest' ih =>
    intro pos i hwf o ho
    obtain ⟨hpay, hpos, _, _⟩ := hwf f (by simp)
    have hlen : (framesBytes i (f :: rest')).length
        = 64 + frameDataSize f + (framesBytes (i + 1) rest').length := by
      simp [framesBytes, List.length_append, frameHeaderBytes_length, hpay]
      omega
    rcases List.mem_cons.mp ho with ho | ho
    · subst ho
      exact ⟨le_rfl, by omega⟩
    · have hb := ih (pos + 64 + frameDataSize f) (i + 1)
        (fun g hg => hwf g (by simp [hg])) o ho
      exact ⟨by omega, by omega⟩

/-- The fixed file header occupies exactly `FILE_HEADER_SIZE = 512` bytes. -/
theorem fileHeaderBytes_length (width height fc idxOff : Nat) :
    (fileHeaderBytes width height fc idxOff).length = 512 := by
  simp [fileHeaderBytes, vrawMagic, le32, le64]

/-- The frame-count field sits at byte offset 32 of the file header. -/
theorem readLE32_fileHeader_frameCount (width height fc idxOff : Nat)
    (tail : List Nat) (hfc : fc < 4294967296) :
    readLE32 (fileHeaderBytes width height fc idxOff ++ tail) 32 = fc := by
  have hassoc : fileHeaderBytes width height fc idxOff ++ tail
      = (vrawMagic ++ le32 2 ++ le32 width ++ le32 height ++ List.replicate 16 0)
        ++ (le32 fc ++ (le64 idxOff ++ (List.replicate 468 0 ++ tail))) := by
    simp [fileHeaderBytes, List.append_assoc]
  rw [hassoc,
    show (32 : Nat) = (vrawMagic ++ le32 2 ++ le32 width ++ le32 height
        ++ List.replicate 16 0).length + 0 by simp [vrawMagic, le32],
    readLE32_append_right]
  exact readLE32_le32 _ _ hfc

/-- The index-offset field sits at byte offset 36 of the file header. -/
theorem readLE64_fileHeader_indexOffset (width height fc idxOff : Nat)
    (tail : List Nat) (hoff : idxOff < 18446744073709551616) :
    readLE64 (fileHeaderBytes width height fc idxOff ++ tail) 36 = idxOff := by
  have hassoc : fileHeaderBytes width height fc idxOff ++ tail
      = (vrawMagic ++ le32 2 ++ le32 width ++ le32 height ++ List.replicate 16 0
          ++ le32 fc)
        ++ (le64 idxOff ++ (List.replicate 468 0 ++ tail)) := by
    simp [fileHeaderBytes, List.append_assoc]
  rw [hassoc,
    show (36 : Nat) = (vrawMagic ++ le32 2 ++ le32 width ++ le32 height
        ++ List.replicate 16 0 ++ le32 fc).length + 0 by simp [vrawMagic, le32],
    readLE64_append_right]
  exact readLE64_le64 _ _ hoff

/-- C2 (amended): for a writer session with at least one accepted frame,
deleting every byte from the index offset to end of file still lets
`VrawReader::open` succeed: the direct index read fails (the table is gone),
the sequential scan rebuilds the index, and validation accepts it.  The
recovered index holds exactly the writer frame offsets — every fully
written frame, in order, and nothing else.  Frames are well formed as the
writer emits them (payload length equals the recorded data size, which is
positive) and the counters fit their header fields. -/
theorem C2_truncated_index_recovery (width height : Nat) (frames : List FrameRec)
    (hwf : ∀ f ∈ frames, frameWF f) (hne : frames ≠ [])
    (hfc : frames.length < 4294967296)
    (hoff : 512 + (framesBytes 0 frames).length < 18446744073709551616) :
    vrawOpen (truncatedSessionFile width height frames)
      = some (frameOffsets 512 frames) := by
  have hfile : truncatedSessionFile width height frames
      = fileHeaderBytes width height frames.length (512 + (framesBytes 0 frames).length)
        ++ framesBytes 0 frames := rfl
  have hblen : (fileHeaderBytes width height frames.length
        (512 + (framesBytes 0 frames).length) ++ framesBytes 0 frames).length
      = 512 + (framesBytes 0 frames).length := by
    rw [List.length_append, fileHeaderBytes_length]
  rw [hfile]
  unfold vrawOpen
  rw [if_neg (by rw [hblen]; omega)]
  have htake : (fileHeaderBytes width height frames.length
      (512 + (framesBytes 0 frames).length) ++ framesBytes 0 frames).take 4
      = vrawMagic := rfl
  rw [if_neg (fun hcontra => hcontra.1 htake)]
  rw [readLE32_fileHeader_frameCount _ _ _ _ _ hfc,
    readLE64_fileHeader_indexOffset _ _ _ _ _ hoff]
  have hseq : buildSequentialIndex (fileHeaderBytes width height frames.length
        (512 + (framesBytes 0 frames).length) ++ framesBytes 0 frames) frames.length
      = frameOffsets 512 frames := by
    unfold buildSequentialIndex
    have hscan := buildSeqIdxAux_frames frames
      (fileHeaderBytes width height frames.length
        (512 + (framesBytes 0 frames).length)) 0 hwf
    rw [fileHeaderBytes_length] at hscan
    exact hscan
  have hnonempty : frameOffsets 512 frames ≠ [] := by
    cases frames with
    | nil => exact absurd rfl hne
    | cons f r => simp [frameOffsets]
  have hval : validateIndex (frameOffsets 512 frames)
      (fileHeaderBytes width height frames.length
        (512 + (framesBytes 0 frames).length) ++ framesBytes 0 frames).length
      = true := by
    unfold validateIndex
    rw [Bool.and_eq_true]
    constructor
    · cases hfo : frameOffsets 512 frames with
      | nil => exact absurd hfo hnonempty
      | cons a l => rfl
    · rw [List.all_eq_true]
      intro o ho
      have hb := frameOffsets_bounds frames 512 0 hwf o ho
      rw [hblen]
      exact decide_eq_true (by omega)
  simp only [acquireIndex]
  rw [hseq]
  rw [if_neg (fun hcontra => hnonempty hcontra.2)]
  have hnro : ¬ (512 + (framesBytes 0 frames).length ≠ 0 ∧ frames.length ≠ 0 ∧
      512 + (framesBytes 0 frames).length + 8 * frames.length
        ≤ (fileHeaderBytes width height frames.length
            (512 + (framesBytes 0 frames).length) ++ framesBytes 0 frames).length) := by
    rw [hblen]
    rintro ⟨_, hfcne, hle⟩
    exact hfcne (by omega)
  rw [if_neg hnro]
  rw [if_pos hval]

/-- C2 counterexample to the claim as stated: a writer session that accepted
zero frames leaves (after deleting the bytes from the index offset — here
512 — to end of file) just the 512-byte header with frame count 0.  `open`
fails on it: the direct index read is rejected (frame count 0), the
sequential scan yields an empty index, and an empty index is a failure.  So
open does not succeed for every truncated session file. -/
theorem C2_counterexample_zero_frames :
    vrawOpen (truncatedSessionFile 64 48 []) = none := by
  decide

/-- C2 witness: a two-frame session, one stored frame compressed (csize 3)
and one uncompressed (usize 2), truncated at the index offset. -/
theorem C2_truncated_index_recovery_witness :
    vrawOpen (truncatedSessionFile 64 48
        [⟨7, 3, 9, [1, 2, 3]⟩, ⟨8, 0, 2, [5, 6]⟩])
      = some (frameOffsets 512 [⟨7, 3, 9, [1, 2, 3]⟩, ⟨8, 0, 2, [5, 6]⟩]) :=
  C2_truncated_index_recovery 64 48 _
    (by decide) (by decide) (by decide) (by decide)

/-- C6: a header with version < 2 and an accepted magic parses successfully,
and the parsed header reports native == effective resolution, binning 1:1,
no audio, no timecode and sensor orientation 0 — synthesized defaults, never
the raw values of the version-2-only fields. -/
theorem C6_legacy_header_defaults (raw : RawFileHeader)
    (hv : raw.version < 2)
    (hm : raw.magic = vrawMagic ∨ raw.magic = mrawMagic) :
    ∃ h, readFileHeader raw = some h ∧
      h.nativeWidth = raw.width ∧ h.nativeHeight = raw.height ∧
      h.binningNum = 1 ∧ h.binningDen = 1 ∧
      h.hasAudio = false ∧ h.hasTimecode = false ∧ h.sensorOrientation = 0 := by
  have hv2 : ¬ 2 ≤ raw.version := by omega
  have hmagic : ¬ (raw.magic ≠ vrawMagic ∧ raw.magic ≠ mrawMagic) := by tauto
  unfold readFileHeader
  rw [if_neg hmagic]
  exact ⟨_, rfl, by simp [hv2], by simp [hv2], by simp [hv2], by simp [hv2],
    by simp [hv2], by simp [hv2], by simp [hv2]⟩

/-- C6 witness: a concrete version-1 header with the legacy magic. -/
theorem C6_legacy_header_defaults_witness :
    ∃ h, readFileHeader
        ⟨mrawMagic, 1, 64, 48, 0, 5, 0, [64, 64, 64, 64], 4095, 3, 1000,
         1111, 2222, 7, 9, 1, 2, 16, 48000, 3333, 4444, 1, 0, 24, 0, 0,
         10, 20, 30, 5, 90⟩ = some h ∧
      h.nativeWidth = 64 ∧ h.nativeHeight = 48 ∧
      h.binningNum = 1 ∧ h.binningDen = 1 ∧
      h.hasAudio = false ∧ h.hasTimecode = false ∧ h.sensorOrientation = 0 :=
  C6_legacy_header_defaults _ (by decide) (Or.inr rfl)

/-! ### C7: log encoders clip at black and stay in range -/

/-- C7: for black < white, both log pixel encoders return code 0 whenever
the sample is at or below the black level (the integer subtraction is
nonpositive and clips before any arithmetic), and every returned code lies
within the bit range: at most 1023 at 10-bit, at most 4095 at 12-bit (the
lower bound 0 is inherent to the Nat-valued result). -/
theorem C7_log_encode_clip_and_range (pixel blackLevel whiteLevel : Nat)
    (hbw : blackLevel < whiteLevel) :
    (pixel ≤ blackLevel →
        encodePixelLog10Bit pixel blackLevel whiteLevel = 0 ∧
        encodePixelLog12Bit pixel blackLevel whiteLevel = 0) ∧
    encodePixelLog10Bit pixel blackLevel whiteLevel ≤ 1023 ∧
    encodePixelLog12Bit pixel blackLevel whiteLevel ≤ 4095 := by
  refine ⟨fun hpb => ?_, ?_, ?_⟩
  · have h0 : (pixel : Int) - (blackLevel : Int) ≤ 0 := by
      omega
    constructor <;> simp [encodePixelLog10Bit, encodePixelLog12Bit, h0]
  · by_cases h0 : (pixel : Int) - (blackLevel : Int) ≤ 0
    · simp [encodePixelLog10Bit, h0]
    · simp only [encodePixelLog10Bit, if_neg h0]
      exact min_le_right _ _
  · by_cases h0 : (pixel : Int) - (blackLevel : Int) ≤ 0
    · simp [encodePixelLog12Bit, h0]
    · simp only [encodePixelLog12Bit, if_neg h0]
      exact min_le_right _ _

/-- C7 witness at sample 5, black 10, white 20. -/
theorem C7_log_encode_clip_witness :
    (5 ≤ 10 →
        encodePixelLog10Bit 5 10 20 = 0 ∧
        encodePixelLog12Bit 5 10 20 = 0) ∧
    encodePixelLog10Bit 5 10 20 ≤ 1023 ∧
    encodePixelLog12Bit 5 10 20 ≤ 4095 :=
  C7_log_encode_clip_and_range 5 10 20 (by decide)

/-! ### C8: log encoders are monotone -/

/-- The clamp-scale-log-quantize pipeline shared by both encoders is
monotone in its input. -/
theorem logCurveFloorMono (M : ℝ) (hM : 0 ≤ M) (x y : ℝ) (hxy : x ≤ y)
    (B : ℝ) (hB : 0 < Real.logb 2 B) :
    ⌊Real.logb 2 (min 1 (max 0 x) * M + 1) / Real.logb 2 B * M + 0.5⌋₊ ≤
      ⌊Real.logb 2 (min 1 (max 0 y) * M + 1) / Real.logb 2 B * M + 0.5⌋₊ := by
  have hclamp : min 1 (max 0 x) ≤ min 1 (max 0 y) :=
    min_le_min le_rfl (max_le_max le_rfl hxy)
  have hnn : (0 : ℝ) ≤ min 1 (max 0 x) :=
    le_min zero_le_one (le_max_left 0 x)
  have hpos : (0 : ℝ) < min 1 (max 0 x) * M + 1 := by nlinarith
  have harg : min 1 (max 0 x) * M + 1 ≤ min 1 (max 0 y) * M + 1 := by
    have := mul_le_mul_of_nonneg_right hclamp hM
    linarith
  have hlog : Real.logb 2 (min 1 (max 0 x) * M + 1)
      ≤ Real.logb 2 (min 1 (max 0 y) * M + 1) :=
    Real.logb_le_logb_of_le one_lt_two hpos harg
  have hdiv : Real.logb 2 (min 1 (max 0 x) * M + 1) / Real.logb 2 B
      ≤ Real.logb 2 (min 1 (max 0 y) * M + 1) / Real.logb 2 B :=
    (div_le_div_iff_of_pos_right hB).mpr hlog
  have hmul := mul_le_mul_of_nonneg_right hdiv hM
  exact Nat.floor_mono (by linarith)

/-- C8: for fixed black < white, both log pixel encoders are non-decreasing
in the sample value over the range from black to white. -/
theorem C8_log_encode_monotone (blackLevel whiteLevel s1 s2 : Nat)
    (hbw : blackLevel < whiteLevel) (hlo : blackLevel ≤ s1)
    (h12 : s1 ≤ s2) (hhi : s2 ≤ whiteLevel) :
    encodePixelLog10Bit s1 blackLevel whiteLevel
        ≤ encodePixelLog10Bit s2 blackLevel whiteLevel ∧
    encodePixelLog12Bit s1 blackLevel whiteLevel
        ≤ encodePixelLog12Bit s2 blackLevel whiteLevel := by
  have hc : (0 : ℝ) < (whiteLevel : ℝ) - (blackLevel : ℝ) := by
    have : (blackLevel : ℝ) < (whiteLevel : ℝ) := by exact_mod_cast hbw
    linarith
  have hnum : ((((s1 : Nat) : Int) - ((blackLevel : Nat) : Int) : Int) : ℝ)
      ≤ ((((s2 : Nat) : Int) - ((blackLevel : Nat) : Int) : Int) : ℝ) := by
    push_cast
    have : (s1 : ℝ) ≤ (s2 : ℝ) := by exact_mod_cast h12
    linarith
  have hxy : ((((s1 : Nat) : Int) - ((blackLevel : Nat) : Int) : Int) : ℝ)
        / ((whiteLevel : ℝ) - (blackLevel : ℝ))
      ≤ ((((s2 : Nat) : Int) - ((blackLevel : Nat) : Int) : Int) : ℝ)
        / ((whiteLevel : ℝ) - (blackLevel : ℝ)) :=
    (div_le_div_iff_of_pos_right hc).mpr hnum
  constructor
  · by_cases h1 : ((s1 : Nat) : Int) - ((blackLevel : Nat) : Int) ≤ 0
    · simp only [encodePixelLog10Bit, if_pos h1]
      exact Nat.zero_le _
    · have h2 : ¬ ((s2 : Nat) : Int) - ((blackLevel : Nat) : Int) ≤ 0 := by omega
      simp only [encodePixelLog10Bit, if_neg h1, if_neg h2]
      exact min_le_min
        (logCurveFloorMono 1023 (by norm_num) _ _ hxy 1024
          (Real.logb_pos one_lt_two (by norm_num))) le_rfl
  · by_cases h1 : ((s1 : Nat) : Int) - ((blackLevel : Nat) : Int) ≤ 0
    · simp only [encodePixelLog12Bit, if_pos h1]
      exact Nat.zero_le _
    · have h2 : ¬ ((s2 : Nat) : Int) - ((blackLevel : Nat) : Int) ≤ 0 := by omega
      simp only [encodePixelLog12Bit, if_neg h1, if_neg h2]
      exact min_le_min
        (logCurveFloorMono 4095 (by norm_num) _ _ hxy 4096
          (Real.logb_pos one_lt_two (by norm_num))) le_rfl

/-- C8 witness: samples 50 and 60 in the range of black 0, white 100. -/
theorem C8_log_encode_monotone_witness :
    encodePixelLog10Bit 50 0 100 ≤ encodePixelLog10Bit 60 0 100 ∧
    encodePixelLog12Bit 50 0 100 ≤ encodePixelLog12Bit 60 0 100 :=
  C8_log_encode_monotone 0 100 50 60 (by decide) (by decide) (by decide) (by decide)

end Vraw
